import Mathlib

/-!
Verification of the snarkVM execution-core specification against a shallow
embedding of the source.

Components embedded here, following the source files:
- the circuit scalar addition (circuit/types/scalar/src/add.rs): value-level
  model of `AddAssign`, together with the declared `Metrics` cost table and
  the declared `OutputMode` table;
- the register addressing helper (circuits/core/src/helpers/register.rs):
  the `Register` enum, its parser, printer and ordering;
- the dual-domain register load (synthesizer/src/process/stack/registers/load.rs):
  `load` and `load_circuit` over a console/circuit value model;
- the value serialization glue (console/program/src/data/value/serialize.rs):
  text, compact binary and size-framed binary encodings of `Value`.

External collaborators that are not part of the source (identifier lexing,
plaintext/record find-by-path, type matching, the byte/text codecs of
values) are modelled from the specification; each such definition is marked
`Modelled from the spec:` in its doc comment.
-/

set_option maxRecDepth 4000

namespace SnarkVM

/-- The visibility mode of a circuit value: Constant, Public or Private. -/
inductive Mode where
  | Constant
  | Public
  | Private
deriving DecidableEq, Repr, Fintype

namespace ScalarAdd

/-- A declared resource count: (constants, public inputs, private inputs,
constraints), mirroring `Count::is(a, b, c, d)`. -/
structure Count where
  constants : Nat
  public : Nat
  private_vars : Nat
  constraints : Nat
deriving DecidableEq, Repr

/-- The declared cost table of circuit scalar addition, from the
`Metrics` implementation in add.rs. -/
def count (case : Mode × Mode) : Count :=
  match case.1, case.2 with
  | Mode.Constant, Mode.Constant => ⟨1, 0, 0, 0⟩
  | _, _ => ⟨1, 0, 755, 757⟩

/-- The declared output-mode table of circuit scalar addition, from the
`OutputMode` implementation in add.rs. -/
def output_mode (case : Mode × Mode) : Mode :=
  match case.1, case.2 with
  | Mode.Constant, Mode.Constant => Mode.Constant
  | _, _ => Mode.Private

/-- The lower `k` bits of a natural number, least significant first,
mirroring `to_lower_bits_le`. -/
def to_lower_bits_le (k n : Nat) : List Bool :=
  match k with
  | 0 => []
  | k + 1 => (n % 2 == 1) :: to_lower_bits_le k (n / 2)

/-- The value of a little-endian bit vector, mirroring `from_bits_le`. -/
def from_bits_le : List Bool → Nat
  | [] => 0
  | b :: bs => b.toNat + 2 * from_bits_le bs

/-- The bit size of a field modulus, mirroring `size_in_bits`: the length
of the binary representation of `n`. -/
def size_in_bits (n : Nat) : Nat := Nat.log2 n + 1

/-- A value-level model of a circuit `Scalar`: its mode, the scalar value
carried by its base-field element, and the `bits_le` once-cell, modelled as
an `Option` that is `none` while the cell is uninitialized. -/
structure CScalar where
  mode : Mode
  val : Nat
  bits_le : Option (List Bool)
deriving DecidableEq, Repr

/-- Project a circuit scalar to its plain value, mirroring `eject_value`. -/
def CScalar.eject (s : CScalar) : Nat := s.val

/-- Whether the circuit scalar is a constant, mirroring `is_constant`. -/
def CScalar.is_constant (s : CScalar) : Bool := s.mode = Mode.Constant

/-- Native scalar-field addition: the modular sum in the scalar field of
modulus `N`, mirroring console scalar addition. -/
def native_add (N u v : Nat) : Nat := (u + v) % N

/-- Value-level model of circuit scalar `add_assign` from add.rs, over a
scalar field of modulus `N` and a base field of modulus `P`. If both inputs
are constant, the sum is witnessed directly as a fresh constant. Otherwise
the operands are lifted to the base field and summed there, the sum is
truncated to `size_in_bits N + 1` lower bits and recovered, the scalar
modulus is injected as a base-field constant, and the result is the ternary
selection between the sum and `sum - modulus` on `sum < modulus`; its
scalar-width bit vector is extracted and stored in the once-cell via
`OnceCell::with_value`. -/
def add_assign (N P : Nat) (a b : CScalar) : CScalar :=
  if a.is_constant && b.is_constant then
    { mode := Mode.Constant, val := (a.val + b.val) % N, bits_le := none }
  else
    let sum := (a.val + b.val) % P
    let lower := to_lower_bits_le (size_in_bits N + 1) sum
    let sum' := from_bits_le lower
    let modulus := N
    let wrapping_sum := if sum' < modulus then sum' else (sum' + (P - modulus)) % P
    { mode := Mode.Private
      val := wrapping_sum
      bits_le := some (to_lower_bits_le (size_in_bits N) wrapping_sum) }

/-- Reading the bit vector of a circuit scalar through the once-cell,
mirroring `to_bits_le` over the `bits_le` cache: return the cached vector if
the cell is initialized, else compute it, returning the (possibly updated)
scalar alongside. -/
def CScalar.read_bits_le (N : Nat) (s : CScalar) : List Bool × CScalar :=
  match s.bits_le with
  | some bs => (bs, s)
  | none =>
    let bs := to_lower_bits_le (size_in_bits N) s.val
    (bs, { s with bits_le := some bs })

end ScalarAdd

/-- Whether a character may start an identifier.
Modelled from the spec: an Identifier is an interned name token whose
lexical form is external; the model takes a letter as the starting
character. -/
def isIdentStart (c : Char) : Bool := c.isAlpha

/-- Whether a character may continue an identifier.
Modelled from the spec: letters, digits and underscore continue a name
token. -/
def isIdentChar (c : Char) : Bool := c.isAlpha || c.isDigit || c == '_'

/-- Modelled from the spec: an Identifier is an interned name token supplied
by an external collaborator; the model carries its characters. -/
structure Identifier where
  chars : List Char
deriving DecidableEq, Repr

/-- Lexical well-formedness of an identifier: non-empty, starting with a
letter, continuing with identifier characters. -/
def Identifier.wf (i : Identifier) : Bool :=
  match i.chars with
  | [] => false
  | c :: cs => isIdentStart c && cs.all isIdentChar

/-- Modelled from the spec: Identifier text parsing (an external
collaborator). It consumes the longest non-empty run of identifier
characters that starts with a letter, and fails otherwise. -/
def Identifier.parse (s : List Char) : Option (List Char × Identifier) :=
  match s with
  | [] => none
  | c :: cs =>
    if isIdentStart c then some (cs.dropWhile isIdentChar, ⟨c :: cs.takeWhile isIdentChar⟩)
    else none

/-- Whether a trailing string cannot extend an identifier: it is empty or
starts with a non-identifier character. -/
def noIdentHead (s : List Char) : Bool :=
  match s with
  | [] => true
  | c :: _ => !isIdentChar c

/-- The decimal digit character of `d` (for `d < 10`). -/
def digitChar (d : Nat) : Char :=
  match d with
  | 0 => '0'
  | 1 => '1'
  | 2 => '2'
  | 3 => '3'
  | 4 => '4'
  | 5 => '5'
  | 6 => '6'
  | 7 => '7'
  | 8 => '8'
  | _ => '9'

/-- The numeric value of a decimal digit character. -/
def digitVal (c : Char) : Nat := c.toNat - 48

/-- The value of a list of decimal digit characters, most significant
first, mirroring `locator.parse::<u64>()` on the recognized digit run. -/
def digitsToNat (ds : List Char) : Nat :=
  ds.foldl (fun acc c => acc * 10 + digitVal c) 0

/-- The canonical decimal digits of a natural number, most significant
first, with a structural fuel bound. -/
def natDigitsAux : Nat → Nat → List Char
  | 0, _ => []
  | fuel + 1, n =>
    if n < 10 then [digitChar n]
    else natDigitsAux fuel (n / 10) ++ [digitChar (n % 10)]

/-- The canonical decimal digits of a natural number, most significant
first, mirroring the `Display` of an unsigned integer. -/
def natDigits (n : Nat) : List Char := natDigitsAux (n + 1) n

namespace RegisterCore

/-- A register contains the location data to a value in memory: either a
bare locator, or a locator together with a single member identifier,
from the `Register` enum of circuits/core/src/helpers/register.rs. -/
inductive Register where
  | Locator (locator : Nat)
  | Member (locator : Nat) (identifier : Identifier)
deriving DecidableEq, Repr

/-- The locator of the register, mirroring `Register::locator`. -/
def Register.locator : Register → Nat
  | .Locator l => l
  | .Member l _ => l

/-- Well-formedness of a register value: the locator fits in a u64 and the
member identifier, when present, is lexically valid. -/
def Register.wf : Register → Bool
  | .Locator l => l < 2 ^ 64
  | .Member l i => l < 2 ^ 64 && i.wf

/-- The printed form of a register, mirroring the `Display` implementation:
`r{locator}` or `r{locator}.{identifier}`. -/
def Register.print : Register → List Char
  | .Locator l => 'r' :: natDigits l
  | .Member l i => 'r' :: (natDigits l ++ '.' :: i.chars)

/-- The register parser, mirroring `Register::parse`: the tag `r`, then a
non-empty maximal run of decimal digits converted through `u64` (failing on
overflow, as `map_res` does), then optionally a `.` followed by an
identifier; the optional pair backtracks wholly if either part fails.
Returns the unconsumed remainder alongside the register, as nom does. -/
def Register.parse (s : List Char) : Option (List Char × Register) :=
  match s with
  | [] => none
  | c :: s1 =>
    if c = 'r' then
      let ds := s1.takeWhile Char.isDigit
      if ds.isEmpty then none
      else
        let loc := digitsToNat ds
        if loc < 2 ^ 64 then
          match s1.dropWhile Char.isDigit with
          | [] => some ([], .Locator loc)
          | d :: s3 =>
            if d = '.' then
              match Identifier.parse s3 with
              | some (s4, id) => some (s4, .Member loc id)
              | none => some (d :: s3, .Locator loc)
            else some (d :: s3, .Locator loc)
        else none
    else none

/-- Register comparison, mirroring the `Ord` implementation: ordering is
determined by the register locator and the identifier is ignored. -/
def Register.cmp (a b : Register) : Ordering := compare a.locator b.locator

/-- Whether a trailing string cannot extend a bare locator register: it
does not start with a digit, and does not start with a dot followed by an
identifier start. -/
def locBoundary (s : List Char) : Bool :=
  match s with
  | [] => true
  | c :: t =>
    if c = '.' then
      match t with
      | [] => true
      | c' :: _ => !isIdentStart c'
    else !c.isDigit

/-- Whether a trailing string cannot extend the printed form of the given
register, so that the printed form is the longest valid register prefix of
the concatenation. -/
def restBoundary (r : Register) (rest : List Char) : Bool :=
  match r with
  | .Locator _ => locBoundary rest
  | .Member _ _ => noIdentHead rest

end RegisterCore

namespace Exec

/-- Modelled from the spec: a literal is a typed scalar value (the console
`Literal` type is an external collaborator); the model carries
representative kinds with numeric payloads. -/
inductive Literal where
  | Boolean (b : Bool)
  | U64 (v : Nat)
  | Field (v : Nat)
  | Scalar (v : Nat)
  | Group (v : Nat)
  | Address (a : Nat)
deriving DecidableEq, Repr

mutual

/-- Modelled from the spec: a plaintext recursively contains either a
literal or a struct, an ordered mapping of identifiers to nested
plaintexts. -/
inductive Plaintext where
  | literal (l : Literal)
  | struct (members : PMembers)

/-- The ordered members of a struct: an association list of identifiers to
nested plaintexts. -/
inductive PMembers where
  | nil
  | cons (name : Identifier) (pt : Plaintext) (tail : PMembers)

end

/-- Modelled from the spec: a record entry tags its inner plaintext with
exactly one of Constant, Public, Private. -/
inductive Entry where
  | Constant (pt : Plaintext)
  | Public (pt : Plaintext)
  | Private (pt : Plaintext)

/-- The inner plaintext of an entry, with its visibility tag discarded,
mirroring the match in load.rs that maps any entry to its plaintext. -/
def Entry.plaintext : Entry → Plaintext
  | .Constant pt => pt
  | .Public pt => pt
  | .Private pt => pt

/-- Modelled from the spec: a record is an ordered mapping of identifiers
to entries. -/
structure Record where
  entries : List (Identifier × Entry)

/-- Modelled from the spec: a value is a plaintext or a record. -/
inductive Value where
  | Plaintext (pt : Plaintext)
  | Record (r : Record)

/-- The error taxonomy of the register file, from the spec and the failure
paths of load.rs. -/
inductive LoadError where
  | UndefinedRegister
  | PathNotFound
  | TypeMismatch
  | NotAMember
  | NoCaller
  | BadProgramID
deriving DecidableEq, Repr

/-- Lookup of a member by identifier in a struct's ordered members.
Modelled from the spec: the find-by-path structural accessor resolves one
segment against the member names in order. -/
def PMembers.find : PMembers → Identifier → Option Plaintext
  | .nil, _ => none
  | .cons name pt tail, i => if name = i then some pt else tail.find i

/-- Modelled from the spec: `Plaintext::find` descends a non-empty path of
identifiers through nested struct fields; an empty path, a literal with
remaining path, or an absent segment fail with PathNotFound. -/
def Plaintext.find : Plaintext → List Identifier → Except LoadError Plaintext
  | _, [] => .error .PathNotFound
  | .literal _, _ :: _ => .error .PathNotFound
  | .struct ms, i :: rest =>
    match ms.find i with
    | none => .error .PathNotFound
    | some pt => if rest.isEmpty then .ok pt else pt.find rest

/-- Lookup of an entry by identifier in a record's ordered entries. -/
def findEntry : List (Identifier × Entry) → Identifier → Option Entry
  | [], _ => none
  | (name, e) :: tail, i => if name = i then some e else findEntry tail i

/-- Modelled from the spec: `Record::find` resolves the first path segment
against the record's entries; deeper segments continue descending into that
entry's plaintext, keeping the entry's visibility on the result. -/
def Record.find (r : Record) : List Identifier → Except LoadError Entry
  | [] => .error .PathNotFound
  | i :: rest =>
    match findEntry r.entries i with
    | none => .error .PathNotFound
    | some e =>
      if rest.isEmpty then .ok e
      else
        match e with
        | .Constant pt => (pt.find rest).map .Constant
        | .Public pt => (pt.find rest).map .Public
        | .Private pt => (pt.find rest).map .Private

/-- A circuit identifier: the ejected identifier together with its mode,
mirroring `circuit::Identifier`. -/
structure CIdentifier where
  id : Identifier
  mode : Mode

/-- A circuit literal: the ejected literal together with its mode,
mirroring a `circuit::Literal` at the value level. -/
structure CLiteral where
  lit : Literal
  mode : Mode

mutual

/-- The circuit mirror of the plaintext model: literals carry modes, and
structs map circuit identifiers to nested circuit plaintexts. -/
inductive CPlaintext where
  | literal (l : CLiteral)
  | struct (members : CMembers)

/-- The ordered members of a circuit struct. -/
inductive CMembers where
  | nil
  | cons (name : CIdentifier) (pt : CPlaintext) (tail : CMembers)

end

/-- The circuit mirror of a record entry. -/
inductive CEntry where
  | Constant (pt : CPlaintext)
  | Public (pt : CPlaintext)
  | Private (pt : CPlaintext)

/-- The inner circuit plaintext of a circuit entry, visibility discarded. -/
def CEntry.plaintext : CEntry → CPlaintext
  | .Constant pt => pt
  | .Public pt => pt
  | .Private pt => pt

/-- The circuit mirror of a record. -/
structure CRecord where
  entries : List (CIdentifier × CEntry)

/-- The circuit mirror of a value. -/
inductive CValue where
  | Plaintext (pt : CPlaintext)
  | Record (r : CRecord)

mutual

/-- Ejection of a circuit plaintext to its plain value, mirroring
`eject_value`: drop every mode. -/
def CPlaintext.eject : CPlaintext → Plaintext
  | .literal l => .literal l.lit
  | .struct ms => .struct ms.eject

/-- Ejection of circuit struct members, dropping every mode. -/
def CMembers.eject : CMembers → PMembers
  | .nil => .nil
  | .cons name pt tail => .cons name.id pt.eject tail.eject

end

/-- Ejection of a circuit entry, preserving its visibility variant. -/
def CEntry.eject : CEntry → Entry
  | .Constant pt => .Constant pt.eject
  | .Public pt => .Public pt.eject
  | .Private pt => .Private pt.eject

/-- Ejection of a circuit record. -/
def CRecord.eject (r : CRecord) : Record :=
  ⟨r.entries.map (fun (i, e) => (i.id, e.eject))⟩

/-- Ejection of a circuit value. -/
def CValue.eject : CValue → Value
  | .Plaintext pt => .Plaintext pt.eject
  | .Record r => .Record r.eject

/-- Lookup of a member by circuit identifier: the comparison is on the
ejected identifier value, mirroring the circuit find-by-path accessor. -/
def CMembers.find : CMembers → CIdentifier → Option CPlaintext
  | .nil, _ => none
  | .cons name pt tail, i => if name.id = i.id then some pt else tail.find i

/-- The circuit mirror of `Plaintext::find`. -/
def CPlaintext.find : CPlaintext → List CIdentifier → Except LoadError CPlaintext
  | _, [] => .error .PathNotFound
  | .literal _, _ :: _ => .error .PathNotFound
  | .struct ms, i :: rest =>
    match ms.find i with
    | none => .error .PathNotFound
    | some pt => if rest.isEmpty then .ok pt else pt.find rest

/-- Lookup of a circuit entry by circuit identifier. -/
def findCEntry : List (CIdentifier × CEntry) → CIdentifier → Option CEntry
  | [], _ => none
  | (name, e) :: tail, i => if name.id = i.id then some e else findCEntry tail i

/-- The circuit mirror of `Record::find`. -/
def CRecord.find (r : CRecord) : List CIdentifier → Except LoadError CEntry
  | [] => .error .PathNotFound
  | i :: rest =>
    match findCEntry r.entries i with
    | none => .error .PathNotFound
    | some e =>
      if rest.isEmpty then .ok e
      else
        match e with
        | .Constant pt => (pt.find rest).map .Constant
        | .Public pt => (pt.find rest).map .Public
        | .Private pt => (pt.find rest).map .Private

/-- Modelled from the spec: the declared type of a literal. -/
inductive LiteralType where
  | Boolean
  | U64
  | Field
  | Scalar
  | Group
  | Address
deriving DecidableEq, Repr

/-- The declared type of a literal value. -/
def Literal.type_of : Literal → LiteralType
  | .Boolean _ => .Boolean
  | .U64 _ => .U64
  | .Field _ => .Field
  | .Scalar _ => .Scalar
  | .Group _ => .Group
  | .Address _ => .Address

mutual

/-- Modelled from the spec: a declared plaintext type mirrors the shape of
the literal/struct variants, without values. -/
inductive PlaintextType where
  | literal (t : LiteralType)
  | struct (fields : TMembers)

/-- The ordered declared fields of a struct type. -/
inductive TMembers where
  | nil
  | cons (name : Identifier) (t : PlaintextType) (tail : TMembers)

end

/-- Modelled from the spec: a declared entry type is a plaintext type
tagged with a visibility. -/
inductive EntryType where
  | Constant (t : PlaintextType)
  | Public (t : PlaintextType)
  | Private (t : PlaintextType)

/-- The inner plaintext type of an entry type. -/
def EntryType.plaintext : EntryType → PlaintextType
  | .Constant t => t
  | .Public t => t
  | .Private t => t

/-- Modelled from the spec: a declared register type is a plaintext type or
a record type (an ordered mapping of identifiers to entry types). -/
inductive RegisterType where
  | plaintext (t : PlaintextType)
  | record (entries : List (Identifier × EntryType))

mutual

/-- Modelled from the spec: a plaintext value matches a declared plaintext
type when it has exactly the declared shape — the same literal subtype, or
the same struct fields, in order, each matching recursively. -/
def matchesPlaintext : Plaintext → PlaintextType → Bool
  | .literal l, .literal t => l.type_of == t
  | .struct ms, .struct fs => matchesPMembers ms fs
  | _, _ => false

/-- Shape matching of struct members against declared struct fields. -/
def matchesPMembers : PMembers → TMembers → Bool
  | .nil, .nil => true
  | .cons name pt tail, .cons name' t tail' =>
    name == name' && matchesPlaintext pt t && matchesPMembers tail tail'
  | _, _ => false

end

/-- An entry matches an entry type when the visibilities agree and the
inner plaintext matches the inner type. -/
def matchesEntry : Entry → EntryType → Bool
  | .Constant pt, .Constant t => matchesPlaintext pt t
  | .Public pt, .Public t => matchesPlaintext pt t
  | .Private pt, .Private t => matchesPlaintext pt t
  | _, _ => false

/-- Shape matching of record entries against declared record entries. -/
def matchesEntries : List (Identifier × Entry) → List (Identifier × EntryType) → Bool
  | [], [] => true
  | (name, e) :: tail, (name', t) :: tail' =>
    name == name' && matchesEntry e t && matchesEntries tail tail'
  | _, _ => false

/-- Modelled from the spec: `Stack::matches_register_type` checks that a
resolved value's shape exactly matches the declared register type. -/
def matches_register_type : Value → RegisterType → Bool
  | .Plaintext pt, .plaintext t => matchesPlaintext pt t
  | .Record r, .record ets => matchesEntries r.entries ets
  | _, _ => false

/-- The synthesizer register: a locator, or a locator together with a path
of identifiers, from the synthesizer `Register` used by load.rs (whose
member path is an identifier sequence). -/
inductive Register where
  | Locator (locator : Nat)
  | Member (locator : Nat) (path : List Identifier)

/-- The locator of a synthesizer register. -/
def Register.locator : Register → Nat
  | .Locator l => l
  | .Member l _ => l

/-- Lookup by locator in an association list, mirroring the register-store
map lookups of load.rs. -/
def findLoc {α : Type} : List (Nat × α) → Nat → Option α
  | [], _ => none
  | (k, v) :: tail, l => if k = l then some v else findLoc tail l

/-- Lookup of a declared struct field type by name. -/
def TMembers.findName : TMembers → Identifier → Option PlaintextType
  | .nil, _ => none
  | .cons name t tail, i => if name = i then some t else tail.findName i

/-- Descent of a declared plaintext type along a member path.
Modelled from the spec: the declared type of a member mirrors the struct
field types. -/
def PlaintextType.find : PlaintextType → List Identifier → Except LoadError PlaintextType
  | _, [] => .error .PathNotFound
  | .literal _, _ :: _ => .error .PathNotFound
  | .struct fs, i :: rest =>
    match fs.findName i with
    | none => .error .PathNotFound
    | some t => if rest.isEmpty then .ok t else t.find rest

/-- Lookup of a declared record entry type by name. -/
def findEntryType : List (Identifier × EntryType) → Identifier → Option EntryType
  | [], _ => none
  | (name, t) :: tail, i => if name = i then some t else findEntryType tail i

/-- Modelled from the spec: the per-function immutable mapping from
register locators to declared types. -/
structure RegisterTypes where
  types : List (Nat × RegisterType)

/-- Modelled from the spec: `RegisterTypes::get_type` resolves the declared
type of a register — the declared type of its locator, descended along the
member path; a record member's declared type is the entry's plaintext type.
An undeclared locator makes the register not a member of the function. -/
def RegisterTypes.get_type (rt : RegisterTypes) (r : Register) : Except LoadError RegisterType :=
  match findLoc rt.types r.locator with
  | none => .error .NotAMember
  | some ty =>
    match r with
    | .Locator _ => .ok ty
    | .Member _ path =>
      match ty with
      | .plaintext t => (t.find path).map .plaintext
      | .record ets =>
        match path with
        | [] => .error .PathNotFound
        | i :: rest =>
          match findEntryType ets i with
          | none => .error .PathNotFound
          | some et =>
            if rest.isEmpty then .ok (.plaintext et.plaintext)
            else (et.plaintext.find rest).map .plaintext

/-- An instruction operand, from the `Operand` enum used by load.rs. The
`ProgramID` variant carries the result of the external
`program_id.to_address()` conversion. -/
inductive Operand where
  | Literal (l : Literal)
  | Register (r : Register)
  | ProgramID (addr : Option Nat)
  | Caller

/-- The dual-domain register file of load.rs: the console register store,
the circuit register store, the caller addresses of both domains (the
circuit caller carries its mode), and the declared register types. -/
structure Registers where
  console_registers : List (Nat × Value)
  circuit_registers : List (Nat × CValue)
  caller : Option Nat
  caller_circuit : Option (Nat × Mode)
  register_types : RegisterTypes

/-- Resolution of a stored console value for a register, mirroring the
second match of `load`: a bare locator returns the stored value itself; a
member register descends the path, a record entry losing its visibility. -/
def resolveValue (r : Register) (v : Value) : Except LoadError Value :=
  match r with
  | .Locator _ => .ok v
  | .Member _ path =>
    match v with
    | .Plaintext pt => (pt.find path).map Value.Plaintext
    | .Record rec => (rec.find path).map (fun e => Value.Plaintext e.plaintext)

/-- Resolution of a stored circuit value for a register, mirroring the
second match of `load_circuit`: the path is injected as constant circuit
identifiers before descending. -/
def resolveCValue (r : Register) (v : CValue) : Except LoadError CValue :=
  match r with
  | .Locator _ => .ok v
  | .Member _ path =>
    let cpath := path.map (fun i => CIdentifier.mk i Mode.Constant)
    match v with
    | .Plaintext pt => (pt.find cpath).map CValue.Plaintext
    | .Record rec => (rec.find cpath).map (fun e => CValue.Plaintext e.plaintext)

/-- The native `load` of load.rs: a literal operand returns its plaintext
immediately; the program ID and caller return address literals; a register
operand is resolved from the console store (failing on an absent locator),
descended along the member path (a record entry's visibility is
discarded), and checked against the declared register type. -/
def load (regs : Registers) (operand : Operand) : Except LoadError Value :=
  match operand with
  | .Literal l => .ok (.Plaintext (.literal l))
  | .ProgramID none => .error .BadProgramID
  | .ProgramID (some addr) => .ok (.Plaintext (.literal (.Address addr)))
  | .Caller =>
    match regs.caller with
    | some a => .ok (.Plaintext (.literal (.Address a)))
    | none => .error .NoCaller
  | .Register r =>
    match findLoc regs.console_registers r.locator with
    | none => .error .UndefinedRegister
    | some v =>
      match resolveValue r v with
      | .error e => .error e
      | .ok sv =>
        match regs.register_types.get_type r with
        | .error _ => .error .NotAMember
        | .ok ty => if matches_register_type sv ty then .ok sv else .error .TypeMismatch

/-- The circuit `load_circuit` of load.rs: a literal operand is injected as
a constant circuit plaintext; the program ID is injected as a constant; the
caller returns the circuit caller address; a register operand is resolved
from the circuit store (failing on an absent locator), descended along the
member path injected as constant circuit identifiers (a record entry's
visibility is discarded), and checked against the declared register type on
its ejected plain value. -/
def load_circuit (regs : Registers) (operand : Operand) : Except LoadError CValue :=
  match operand with
  | .Literal l => .ok (.Plaintext (.literal ⟨l, Mode.Constant⟩))
  | .ProgramID none => .error .BadProgramID
  | .ProgramID (some addr) => .ok (.Plaintext (.literal ⟨.Address addr, Mode.Constant⟩))
  | .Caller =>
    match regs.caller_circuit with
    | some (a, m) => .ok (.Plaintext (.literal ⟨.Address a, m⟩))
    | none => .error .NoCaller
  | .Register r =>
    match findLoc regs.circuit_registers r.locator with
    | none => .error .UndefinedRegister
    | some v =>
      match resolveCValue r v with
      | .error e => .error e
      | .ok sv =>
        match regs.register_types.get_type r with
        | .error _ => .error .NotAMember
        | .ok ty => if matches_register_type sv.eject ty then .ok sv else .error .TypeMismatch

/-- The number of members of a struct. -/
def PMembers.length : PMembers → Nat
  | .nil => 0
  | .cons _ _ tail => tail.length + 1

/-- Modelled from the spec: serialization well-formedness of a literal,
bounding each numeric payload by its fixed binary width. -/
def Literal.wf : Literal → Bool
  | .Boolean _ => true
  | .U64 v => v < 2 ^ 64
  | .Field v => v < 2 ^ 256
  | .Scalar v => v < 2 ^ 256
  | .Group v => v < 2 ^ 256
  | .Address a => a < 2 ^ 256

mutual

/-- Well-formedness of a constructible plaintext: literal payloads in
range, member names lexically valid and short, member counts byte-sized. -/
def Plaintext.wf : Plaintext → Bool
  | .literal l => l.wf
  | .struct ms => ms.length < 256 && ms.wf

/-- Well-formedness of struct members. -/
def PMembers.wf : PMembers → Bool
  | .nil => true
  | .cons i pt tail => i.wf && i.chars.length < 256 && pt.wf && tail.wf

end

/-- Well-formedness of a record entry. -/
def Entry.wf (e : Entry) : Bool := e.plaintext.wf

/-- Well-formedness of a constructible record: a non-empty, byte-sized
ordered set of entries with valid short names. -/
def Record.wf (r : Record) : Bool :=
  !r.entries.isEmpty && r.entries.length < 256 &&
    r.entries.all (fun (i, e) => i.wf && i.chars.length < 256 && e.wf)

/-- Well-formedness of a constructible value. -/
def Value.wf : Value → Bool
  | .Plaintext pt => pt.wf
  | .Record r => r.wf

/-- Modelled from the spec: the canonical textual form of a literal
(program-source-like typed-scalar syntax; the address form is abstracted as
the tag `aleo` followed by digits, the external bech32 lexing being a
collaborator). -/
def Literal.print : Literal → List Char
  | .Boolean true => 't' :: 'r' :: 'u' :: 'e' :: []
  | .Boolean false => 'f' :: 'a' :: 'l' :: 's' :: 'e' :: []
  | .U64 v => natDigits v ++ ('u' :: '6' :: '4' :: [])
  | .Field v => natDigits v ++ ('f' :: 'i' :: 'e' :: 'l' :: 'd' :: [])
  | .Scalar v => natDigits v ++ ('s' :: 'c' :: 'a' :: 'l' :: 'a' :: 'r' :: [])
  | .Group v => natDigits v ++ ('g' :: 'r' :: 'o' :: 'u' :: 'p' :: [])
  | .Address a => 'a' :: 'l' :: 'e' :: 'o' :: natDigits a

mutual

/-- Modelled from the spec: the canonical textual form of a plaintext —
a literal, or braces around comma-separated `name:plaintext` members. -/
def Plaintext.print : Plaintext → List Char
  | .literal l => l.print
  | .struct ms => '{' :: (ms.print ++ ['}'])

/-- The textual form of struct members, comma-separated. -/
def PMembers.print : PMembers → List Char
  | .nil => []
  | .cons i pt .nil => i.chars ++ ':' :: pt.print
  | .cons i pt tl => i.chars ++ ':' :: (pt.print ++ ',' :: tl.print)

end

/-- The textual visibility suffix keyword of an entry. -/
def Entry.visText : Entry → List Char
  | .Constant _ => 'c' :: 'o' :: 'n' :: 's' :: 't' :: 'a' :: 'n' :: 't' :: []
  | .Public _ => 'p' :: 'u' :: 'b' :: 'l' :: 'i' :: 'c' :: []
  | .Private _ => 'p' :: 'r' :: 'i' :: 'v' :: 'a' :: 't' :: 'e' :: []

/-- Modelled from the spec: the textual form of a record entry — its
plaintext followed by a dot and its visibility suffix. -/
def Entry.print (e : Entry) : List Char := e.plaintext.print ++ '.' :: e.visText

/-- The textual form of record entries, comma-separated. -/
def printEntries : List (Identifier × Entry) → List Char
  | [] => []
  | (i, e) :: [] => i.chars ++ ':' :: e.print
  | (i, e) :: tl => i.chars ++ ':' :: (e.print ++ ',' :: printEntries tl)

/-- The textual form of a record. -/
def Record.print (r : Record) : List Char := '{' :: (printEntries r.entries ++ ['}'])

/-- The canonical textual form of a value: its plaintext or record form. -/
def Value.toText : Value → List Char
  | .Plaintext pt => pt.print
  | .Record r => r.print

/-- Modelled from the spec: the literal text reader. A leading digit run
followed by a type suffix reads a numeric literal; the keywords `true` and
`false` read booleans; the tag `aleo` followed by digits reads an address. -/
def readLit (s : List Char) : Option (List Char × Literal) :=
  match s with
  | [] => none
  | c :: _ =>
    if c.isDigit then
      let ds := s.takeWhile Char.isDigit
      let s1 := s.dropWhile Char.isDigit
      let sfx := s1.takeWhile isIdentChar
      let s2 := s1.dropWhile isIdentChar
      let v := digitsToNat ds
      if sfx = 'u' :: '6' :: '4' :: [] then some (s2, .U64 v)
      else if sfx = 'f' :: 'i' :: 'e' :: 'l' :: 'd' :: [] then some (s2, .Field v)
      else if sfx = 's' :: 'c' :: 'a' :: 'l' :: 'a' :: 'r' :: [] then some (s2, .Scalar v)
      else if sfx = 'g' :: 'r' :: 'o' :: 'u' :: 'p' :: [] then some (s2, .Group v)
      else none
    else
      let kw := s.takeWhile isIdentChar
      let s1 := s.dropWhile isIdentChar
      if kw = 't' :: 'r' :: 'u' :: 'e' :: [] then some (s1, .Boolean true)
      else if kw = 'f' :: 'a' :: 'l' :: 's' :: 'e' :: [] then some (s1, .Boolean false)
      else
        match kw with
        | 'a' :: 'l' :: 'e' :: 'o' :: ds =>
          match ds with
          | [] => none
          | _ :: _ => if ds.all Char.isDigit then some (s1, .Address (digitsToNat ds)) else none
        | _ => none

mutual

/-- Modelled from the spec: the plaintext text reader — a brace opens a
struct whose members are read until the closing brace, anything else must
read as a literal. The fuel argument bounds the recursion by the input
length. -/
def readPt : Nat → List Char → Option (List Char × Plaintext)
  | 0, _ => none
  | fuel + 1, s =>
    match s with
    | [] => none
    | c :: s1 =>
      if c = '{' then
        match readPMembers fuel s1 with
        | some (d :: s3, ms) => if d = '}' then some (s3, .struct ms) else none
        | _ => none
      else (readLit s).map (fun p => (p.1, .literal p.2))

/-- The struct-member text reader: an empty member list is recognized on a
lookahead closing brace; otherwise `name:plaintext` members separated by
commas. -/
def readPMembers : Nat → List Char → Option (List Char × PMembers)
  | 0, _ => none
  | fuel + 1, s =>
    match s with
    | [] => none
    | c :: _ =>
      if c = '}' then some (s, .nil)
      else
        match Identifier.parse s with
        | none => none
        | some (s1, i) =>
          match s1 with
          | [] => none
          | c1 :: s2 =>
            if c1 = ':' then
              match readPt fuel s2 with
              | none => none
              | some (s3, pt) =>
                match s3 with
                | [] => some (s3, .cons i pt .nil)
                | c3 :: s4 =>
                  if c3 = ',' then
                    (readPMembers fuel s4).map (fun p => (p.1, .cons i pt p.2))
                  else some (s3, .cons i pt .nil)
            else none

end

/-- The record-entry text reader: a plaintext followed by a dot and a
visibility keyword. -/
def readEntry (fuel : Nat) (s : List Char) : Option (List Char × Entry) :=
  match readPt fuel s with
  | none => none
  | some (s1, pt) =>
    match s1 with
    | [] => none
    | c :: s2 =>
      if c = '.' then
        let kw := s2.takeWhile isIdentChar
        let s3 := s2.dropWhile isIdentChar
        if kw = ('c' :: 'o' :: 'n' :: 's' :: 't' :: 'a' :: 'n' :: 't' :: []) then
          some (s3, .Constant pt)
        else if kw = ('p' :: 'u' :: 'b' :: 'l' :: 'i' :: 'c' :: []) then some (s3, .Public pt)
        else if kw = ('p' :: 'r' :: 'i' :: 'v' :: 'a' :: 't' :: 'e' :: []) then
          some (s3, .Private pt)
        else none
      else none

/-- The record-entries text reader, comma-separated until a lookahead
closing brace. -/
def readEntries : Nat → List Char → Option (List Char × List (Identifier × Entry))
  | 0, _ => none
  | fuel + 1, s =>
    match s with
    | [] => none
    | c :: _ =>
      if c = '}' then some (s, [])
      else
        match Identifier.parse s with
        | none => none
        | some (s1, i) =>
          match s1 with
          | [] => none
          | c1 :: s2 =>
            if c1 = ':' then
              match readEntry fuel s2 with
              | none => none
              | some (s3, e) =>
                match s3 with
                | [] => some (s3, [(i, e)])
                | c3 :: s4 =>
                  if c3 = ',' then (readEntries fuel s4).map (fun p => (p.1, (i, e) :: p.2))
                  else some (s3, [(i, e)])
            else none

/-- The record text reader. -/
def readRecord (fuel : Nat) (s : List Char) : Option (List Char × Record) :=
  match s with
  | [] => none
  | c :: s1 =>
    if c = '{' then
      match readEntries fuel s1 with
      | some (d :: s3, es) => if d = '}' then some (s3, ⟨es⟩) else none
      | _ => none
    else none

/-- Modelled from the spec: the value text reader used by the
human-readable deserialization — the input must be consumed wholly as a
plaintext, or failing that as a record. -/
def Value.fromText (s : List Char) : Option Value :=
  match readPt (s.length + 1) s with
  | some ([], pt) => some (.Plaintext pt)
  | _ =>
    match readRecord (s.length + 1) s with
    | some ([], r) => some (.Record r)
    | _ => none

/-- The little-endian byte representation of a natural number in `k`
bytes. -/
def natToLeBytes (k n : Nat) : List Nat :=
  match k with
  | 0 => []
  | k + 1 => n % 256 :: natToLeBytes k (n / 256)

/-- The value of a little-endian byte list. -/
def leBytesToNat : List Nat → Nat
  | [] => 0
  | b :: bs => b + 256 * leBytesToNat bs

/-- Split `k` bytes off the front of a byte list, failing if it is too
short; returns the remainder alongside the bytes read. -/
def takeBytes (k : Nat) (bs : List Nat) : Option (List Nat × List Nat) :=
  if k ≤ bs.length then some (bs.drop k, bs.take k) else none

/-- Modelled from the spec: the compact binary form of a literal — a
variant discriminant byte followed by the fixed-width little-endian
payload. -/
def Literal.toBytes : Literal → List Nat
  | .Boolean b => [0, cond b 1 0]
  | .U64 v => 1 :: natToLeBytes 8 v
  | .Field v => 2 :: natToLeBytes 32 v
  | .Scalar v => 3 :: natToLeBytes 32 v
  | .Group v => 4 :: natToLeBytes 32 v
  | .Address a => 5 :: natToLeBytes 32 a

/-- The literal binary reader. -/
def readLitBytes : List Nat → Option (List Nat × Literal)
  | 0 :: b :: rest =>
    if b = 1 then some (rest, .Boolean true)
    else if b = 0 then some (rest, .Boolean false)
    else none
  | 1 :: rest => (takeBytes 8 rest).map (fun p => (p.1, .U64 (leBytesToNat p.2)))
  | 2 :: rest => (takeBytes 32 rest).map (fun p => (p.1, .Field (leBytesToNat p.2)))
  | 3 :: rest => (takeBytes 32 rest).map (fun p => (p.1, .Scalar (leBytesToNat p.2)))
  | 4 :: rest => (takeBytes 32 rest).map (fun p => (p.1, .Group (leBytesToNat p.2)))
  | 5 :: rest => (takeBytes 32 rest).map (fun p => (p.1, .Address (leBytesToNat p.2)))
  | _ => none

/-- Modelled from the spec: the compact binary form of an identifier — a
length byte followed by the character bytes. -/
def idBytes (i : Identifier) : List Nat :=
  i.chars.length :: i.chars.map Char.toNat

/-- The identifier binary reader. -/
def readIdBytes : List Nat → Option (List Nat × Identifier)
  | [] => none
  | len :: bs =>
    match takeBytes len bs with
    | none => none
    | some (rest, taken) => some (rest, ⟨taken.map Char.ofNat⟩)

mutual

/-- Modelled from the spec: the compact binary form of a plaintext — a
variant discriminant, then the literal bytes, or a member count followed by
the members field by field. -/
def Plaintext.toBytes : Plaintext → List Nat
  | .literal l => 0 :: l.toBytes
  | .struct ms => 1 :: ms.length :: ms.toBytes

/-- The compact binary form of struct members: each member is its
identifier bytes followed by its plaintext bytes. -/
def PMembers.toBytes : PMembers → List Nat
  | .nil => []
  | .cons i pt tail => idBytes i ++ (pt.toBytes ++ tail.toBytes)

end

mutual

/-- The plaintext binary reader; the fuel argument bounds the recursion by
the input length. -/
def readPtBytes : Nat → List Nat → Option (List Nat × Plaintext)
  | 0, _ => none
  | fuel + 1, bs =>
    match bs with
    | 0 :: bs1 => (readLitBytes bs1).map (fun p => (p.1, .literal p.2))
    | 1 :: n :: bs1 => (readMembersBytes fuel n bs1).map (fun p => (p.1, .struct p.2))
    | _ => none

/-- The struct-members binary reader for a declared member count. -/
def readMembersBytes : Nat → Nat → List Nat → Option (List Nat × PMembers)
  | _, 0, bs => some (bs, .nil)
  | 0, _ + 1, _ => none
  | fuel + 1, n + 1, bs =>
    match readIdBytes bs with
    | none => none
    | some (bs1, i) =>
      match readPtBytes (fuel + 1) bs1 with
      | none => none
      | some (bs2, pt) => (readMembersBytes (fuel + 1) n bs2).map (fun p => (p.1, .cons i pt p.2))

end

/-- Modelled from the spec: the compact binary form of an entry — a
visibility discriminant followed by the plaintext bytes. -/
def Entry.toBytes : Entry → List Nat
  | .Constant pt => 0 :: pt.toBytes
  | .Public pt => 1 :: pt.toBytes
  | .Private pt => 2 :: pt.toBytes

/-- The entry binary reader. -/
def readEntryBytes (fuel : Nat) : List Nat → Option (List Nat × Entry)
  | 0 :: bs => (readPtBytes fuel bs).map (fun p => (p.1, .Constant p.2))
  | 1 :: bs => (readPtBytes fuel bs).map (fun p => (p.1, .Public p.2))
  | 2 :: bs => (readPtBytes fuel bs).map (fun p => (p.1, .Private p.2))
  | _ => none

/-- Modelled from the spec: the compact binary form of a record — an entry
count followed by the entries, each an identifier and an entry field by
field. -/
def Record.toBytes (r : Record) : List Nat :=
  r.entries.length :: (r.entries.map (fun (i, e) => idBytes i ++ e.toBytes)).flatten

/-- The record-entries binary reader for a declared entry count. -/
def readEntriesBytes (fuel : Nat) : Nat → List Nat → Option (List Nat × List (Identifier × Entry))
  | 0, bs => some (bs, [])
  | n + 1, bs =>
    match readIdBytes bs with
    | none => none
    | some (bs1, i) =>
      match readEntryBytes fuel bs1 with
      | none => none
      | some (bs2, e) => (readEntriesBytes fuel n bs2).map (fun p => (p.1, (i, e) :: p.2))

/-- Modelled from the spec: the compact binary form of a value — a variant
discriminant followed by the plaintext or record bytes, with no redundant
length tags. -/
def Value.to_bytes_le : Value → List Nat
  | .Plaintext pt => 0 :: pt.toBytes
  | .Record r => 1 :: r.toBytes

/-- The value binary reader. -/
def readValueBytes (fuel : Nat) : List Nat → Option (List Nat × Value)
  | 0 :: bs => (readPtBytes fuel bs).map (fun p => (p.1, .Plaintext p.2))
  | 1 :: n :: bs => (readEntriesBytes fuel n bs).map (fun p => (p.1, .Record ⟨p.2⟩))
  | _ => none

/-- Modelled from the spec: the compact binary deserialization of a value,
requiring the input to be consumed wholly. -/
def Value.from_bytes_le (bs : List Nat) : Option Value :=
  match readValueBytes (bs.length + 1) bs with
  | some ([], v) => some v
  | _ => none

/-- The framed binary form of a value, mirroring
`serialize_with_size_encoding`: an 8-byte little-endian total-length
header followed by exactly the compact binary bytes. -/
def Value.to_bytes_framed (v : Value) : List Nat :=
  natToLeBytes 8 v.to_bytes_le.length ++ v.to_bytes_le

/-- The framed binary deserialization of a value, mirroring
`deserialize_with_size_encoding`: read the 8-byte little-endian length,
take exactly that many bytes, and decode them compactly. -/
def Value.from_bytes_framed (bs : List Nat) : Option Value :=
  if 8 ≤ bs.length then
    let n := leBytesToNat (bs.take 8)
    let body := bs.drop 8
    if body.length = n then Value.from_bytes_le body else none
  else none

/-- Whether a trailing string starts at a textual value boundary: it is
empty, or starts with a separator, a closing brace, or a visibility dot —
none of which can extend a printed value. -/
def textBoundary (s : List Char) : Bool :=
  match s with
  | [] => true
  | c :: _ => c == ',' || c == '}' || c == '.'

end Exec

/-! Theorems. -/

namespace ScalarAdd

theorem from_to_bits (k n : Nat) : from_bits_le (to_lower_bits_le k n) = n % 2 ^ k := by
  induction k generalizing n with
  | zero => simp [to_lower_bits_le, from_bits_le, Nat.mod_one]
  | succ k ih =>
    have h2 : (2 : Nat) ^ (k + 1) = 2 * 2 ^ k := by ring
    have hm : n % 2 ^ (k + 1) = n % 2 + 2 * (n / 2 % 2 ^ k) := by
      rw [h2, Nat.mod_mul]
    have hbit : (n % 2 == 1 : Bool).toNat = n % 2 := by
      rcases Nat.mod_two_eq_zero_or_one n with h | h <;> simp [h]
    simp only [to_lower_bits_le, from_bits_le, ih, hbit, hm]

theorem lt_two_pow_size (n : Nat) : n < 2 ^ size_in_bits n := by
  simp only [size_in_bits]
  exact Nat.lt_log2_self

/-- C2: for circuit scalar addition, the output mode is a pure function of
the two input modes, independent of the operand values: the result of the
operation has the declared output mode, which is Constant when both inputs
are Constant and Private for every other of the 9 mode pairs, and is never
Public. -/
theorem add_output_mode (N P : Nat) (a b : CScalar) :
    (add_assign N P a b).mode = output_mode (a.mode, b.mode) ∧
    output_mode (Mode.Constant, Mode.Constant) = Mode.Constant ∧
    (∀ m1 m2 : Mode, ¬(m1 = Mode.Constant ∧ m2 = Mode.Constant) →
      output_mode (m1, m2) = Mode.Private) ∧
    (∀ m1 m2 : Mode, output_mode (m1, m2) ≠ Mode.Public) := by
  refine ⟨?_, by decide, by decide, by decide⟩
  rcases a with ⟨ma, va, ca⟩
  rcases b with ⟨mb, vb, cb⟩
  cases ma <;> cases mb <;>
    simp [add_assign, output_mode, CScalar.is_constant]

theorem add_output_mode_witness :
    output_mode (Mode.Public, Mode.Private) = Mode.Private :=
  (add_output_mode 7 17 ⟨Mode.Public, 3, none⟩ ⟨Mode.Private, 5, none⟩).2.2.1
    Mode.Public Mode.Private (by decide)

/-- C3: the declared resource cost of circuit scalar addition is a pure
function of the input-mode pair: (1, 0, 0, 0) for Constant×Constant, and
the single fixed tuple (1, 0, 755, 757) — with a non-zero constraint
count — for every other of the 9 mode pairs. -/
theorem add_count_table :
    count (Mode.Constant, Mode.Constant) = ⟨1, 0, 0, 0⟩ ∧
    (∀ m1 m2 : Mode, ¬(m1 = Mode.Constant ∧ m2 = Mode.Constant) →
      count (m1, m2) = ⟨1, 0, 755, 757⟩ ∧ (count (m1, m2)).constraints ≠ 0) := by
  decide

theorem add_count_table_witness :
    count (Mode.Public, Mode.Constant) = ⟨1, 0, 755, 757⟩ ∧
    (count (Mode.Public, Mode.Constant)).constraints ≠ 0 :=
  add_count_table.2 Mode.Public Mode.Constant (by decide)

/-- C4: for all scalar-field values and all 9 mode combinations, the
native modular sum equals the ejected value of the circuit-domain sum, and
addition is commutative in both domains. Hypotheses: the scalar modulus is
positive, the base field is large enough to hold a raw sum (the source's
safety note), and the operands are canonical residues. -/
theorem add_circuit_eq_native (N P u v : Nat) (m1 m2 : Mode)
    (c1 c2 : Option (List Bool))
    (hP : 2 * N ≤ P) (hu : u < N) (hv : v < N) :
    (add_assign N P ⟨m1, u, c1⟩ ⟨m2, v, c2⟩).eject = native_add N u v ∧
    (∀ a b : CScalar, add_assign N P a b = add_assign N P b a) ∧
    (∀ x y : Nat, native_add N x y = native_add N y x) := by
  refine ⟨?_, ?_, ?_⟩
  · unfold add_assign CScalar.eject native_add
    by_cases hc : (CScalar.is_constant ⟨m1, u, c1⟩ && CScalar.is_constant ⟨m2, v, c2⟩) = true
    · simp [hc]
    · simp only [hc, if_neg, Bool.false_eq_true, not_false_eq_true, if_false]
      have huv : u + v < P := by omega
      have hsum : (u + v) % P = u + v := Nat.mod_eq_of_lt huv
      have hbits : u + v < 2 ^ (size_in_bits N + 1) := by
        have := lt_two_pow_size N
        have : 2 * N ≤ 2 * 2 ^ size_in_bits N := by omega
        calc u + v < 2 * N := by omega
          _ ≤ 2 * 2 ^ size_in_bits N := this
          _ = 2 ^ (size_in_bits N + 1) := by ring
      rw [hsum, from_to_bits, Nat.mod_eq_of_lt hbits]
      by_cases hlt : u + v < N
      · simp [hlt, Nat.mod_eq_of_lt hlt]
      · simp only [hlt, if_false]
        have h1 : u + v + (P - N) = P + (u + v - N) := by omega
        have h2 : (P + (u + v - N)) % P = (u + v - N) % P := by
          simp [Nat.add_mod_left]
        have h3 : (u + v - N) % P = u + v - N := Nat.mod_eq_of_lt (by omega)
        have h4 : (u + v) % N = u + v - N := by
          rw [Nat.mod_eq_sub_mod (by omega)]
          exact Nat.mod_eq_of_lt (by omega)
        rw [h1, h2, h3, h4]
  · intro a b
    unfold add_assign
    rw [Nat.add_comm a.val b.val, Bool.and_comm]
  · intro x y
    unfold native_add
    rw [Nat.add_comm]

theorem add_circuit_eq_native_witness :
    (add_assign 7 17 ⟨Mode.Public, 3, none⟩ ⟨Mode.Private, 5, none⟩).eject =
      native_add 7 3 5 :=
  (add_circuit_eq_native 7 17 3 5 Mode.Public Mode.Private none none
    (by decide) (by decide) (by decide)).1

/-- C5 counterexample: in the non-constant case of circuit scalar
addition, the bit-vector cache of the result is not computed lazily on
first demand — at construction the once-cell is already initialized
(`OnceCell::with_value`), so the freshly built result's cache is not
empty. -/
theorem add_bits_cache_eager_cex :
    (add_assign 7 17 ⟨Mode.Public, 3, none⟩ ⟨Mode.Private, 5, none⟩).bits_le ≠ none := by
  decide

/-- C5 amended: in the non-constant case of circuit scalar addition, the
canonical scalar-width bit vector of the result is computed eagerly during
the addition and stored into the result's once-cell already initialized;
reading the bits afterwards returns exactly that memoized vector and leaves
the value unchanged — it is never recomputed or invalidated. -/
theorem add_bits_cache_memoized (N P : Nat) (a b : CScalar)
    (h : ¬(a.is_constant && b.is_constant) = true) :
    (add_assign N P a b).bits_le =
      some (to_lower_bits_le (size_in_bits N) (add_assign N P a b).val) ∧
    CScalar.read_bits_le N (add_assign N P a b) =
      (to_lower_bits_le (size_in_bits N) (add_assign N P a b).val,
        add_assign N P a b) := by
  unfold add_assign
  rw [if_neg h]
  exact ⟨rfl, rfl⟩

theorem add_bits_cache_memoized_witness :
    (add_assign 7 17 ⟨Mode.Public, 3, none⟩ ⟨Mode.Private, 5, none⟩).bits_le =
      some (to_lower_bits_le (size_in_bits 7)
        (add_assign 7 17 ⟨Mode.Public, 3, none⟩ ⟨Mode.Private, 5, none⟩).val) :=
  (add_bits_cache_memoized 7 17 ⟨Mode.Public, 3, none⟩ ⟨Mode.Private, 5, none⟩
    (by decide)).1

end ScalarAdd

theorem takeWhile_append_all {α : Type} (p : α → Bool) (xs ys : List α)
    (h : xs.all p = true) : (xs ++ ys).takeWhile p = xs ++ ys.takeWhile p := by
  induction xs with
  | nil => simp
  | cons x xt ih =>
    simp only [List.all_cons, Bool.and_eq_true] at h
    simp [List.takeWhile_cons, h.1, ih h.2]

theorem dropWhile_append_all {α : Type} (p : α → Bool) (xs ys : List α)
    (h : xs.all p = true) : (xs ++ ys).dropWhile p = ys.dropWhile p := by
  induction xs with
  | nil => simp
  | cons x xt ih =>
    simp only [List.all_cons, Bool.and_eq_true] at h
    simp [List.dropWhile_cons, h.1, ih h.2]

theorem takeWhile_eq_nil_of_head {α : Type} (p : α → Bool) (ys : List α)
    (h : ∀ c, ys.head? = some c → p c = false) :
    ys.takeWhile p = [] := by
  cases ys with
  | nil => rfl
  | cons c t => simp [List.takeWhile_cons, h c rfl]

theorem dropWhile_eq_self_of_head {α : Type} (p : α → Bool) (ys : List α)
    (h : ∀ c, ys.head? = some c → p c = false) :
    ys.dropWhile p = ys := by
  cases ys with
  | nil => rfl
  | cons c t => simp [List.dropWhile_cons, h c rfl]

theorem digitChar_isDigit (d : Nat) (h : d < 10) : (digitChar d).isDigit = true := by
  interval_cases d <;> decide

theorem digitVal_digitChar (d : Nat) (h : d < 10) : digitVal (digitChar d) = d := by
  interval_cases d <;> decide

theorem natDigitsAux_all_digits (fuel n : Nat) (h : n < fuel) :
    (natDigitsAux fuel n).all Char.isDigit = true := by
  induction fuel generalizing n with
  | zero => omega
  | succ fuel ih =>
    rw [natDigitsAux]
    by_cases h10 : n < 10
    · simp [if_pos h10, digitChar_isDigit n h10]
    · rw [if_neg h10]
      have hdiv : n / 10 < fuel := by omega
      simp [List.all_append, ih (n / 10) hdiv,
        digitChar_isDigit (n % 10) (Nat.mod_lt n (by omega))]

theorem natDigits_all_digits (n : Nat) : (natDigits n).all Char.isDigit = true :=
  natDigitsAux_all_digits (n + 1) n (Nat.lt_succ_self n)

theorem natDigits_ne_nil (n : Nat) : natDigits n ≠ [] := by
  rw [natDigits, natDigitsAux]
  by_cases h : n < 10
  · simp [if_pos h]
  · simp [if_neg h]

theorem digitsToNat_append_one (xs : List Char) (c : Char) :
    digitsToNat (xs ++ [c]) = digitsToNat xs * 10 + digitVal c := by
  simp [digitsToNat, List.foldl_append]

theorem digitsToNat_natDigitsAux (fuel n : Nat) (h : n < fuel) :
    digitsToNat (natDigitsAux fuel n) = n := by
  induction fuel generalizing n with
  | zero => omega
  | succ fuel ih =>
    rw [natDigitsAux]
    by_cases h10 : n < 10
    · simp [if_pos h10, digitsToNat, digitVal_digitChar n h10]
    · rw [if_neg h10]
      have hdiv : n / 10 < fuel := by omega
      rw [digitsToNat_append_one, ih (n / 10) hdiv,
        digitVal_digitChar (n % 10) (Nat.mod_lt n (by omega))]
      omega

theorem digitsToNat_natDigits (n : Nat) : digitsToNat (natDigits n) = n :=
  digitsToNat_natDigitsAux (n + 1) n (Nat.lt_succ_self n)

theorem identifier_parse_print (i : Identifier) (hwf : i.wf = true)
    (rest : List Char) (hrest : noIdentHead rest = true) :
    Identifier.parse (i.chars ++ rest) = some (rest, i) := by
  rcases i with ⟨chars⟩
  cases chars with
  | nil => simp [Identifier.wf] at hwf
  | cons c cs =>
    simp only [Identifier.wf, Bool.and_eq_true] at hwf
    have hrest' : ∀ x, rest.head? = some x → isIdentChar x = false := by
      intro x hx
      cases rest with
      | nil => simp at hx
      | cons r t =>
        simp only [List.head?_cons, Option.some.injEq] at hx
        subst hx
        simpa [noIdentHead] using hrest
    simp only [Identifier.parse, List.cons_append, hwf.1, if_pos]
    rw [takeWhile_append_all isIdentChar cs rest hwf.2,
      dropWhile_append_all isIdentChar cs rest hwf.2,
      takeWhile_eq_nil_of_head isIdentChar rest hrest',
      dropWhile_eq_self_of_head isIdentChar rest hrest']
    simp

namespace RegisterCore

theorem locBoundary_no_digit (rest : List Char) (hb : locBoundary rest = true) :
    ∀ x, rest.head? = some x → Char.isDigit x = false := by
  cases rest with
  | nil => intro x hx; simp at hx
  | cons c t =>
    intro x hx
    have hcx : c = x := by simpa using hx
    subst hcx
    simp only [locBoundary] at hb
    by_cases hc : c = '.'
    · subst hc
      decide
    · rw [if_neg hc] at hb
      simpa using hb

theorem register_parse_print (r : Register) (rest : List Char)
    (hwf : r.wf = true) (hb : restBoundary r rest = true) :
    Register.parse (r.print ++ rest) = some (rest, r) := by
  cases r with
  | Locator l =>
    have hl : l < 2 ^ 64 := by simpa [Register.wf] using hwf
    simp only [restBoundary] at hb
    have hdrest := locBoundary_no_digit rest hb
    simp only [Register.print, List.cons_append, Register.parse, if_pos rfl]
    rw [takeWhile_append_all Char.isDigit (natDigits l) rest (natDigits_all_digits l),
      dropWhile_append_all Char.isDigit (natDigits l) rest (natDigits_all_digits l),
      takeWhile_eq_nil_of_head Char.isDigit rest hdrest,
      dropWhile_eq_self_of_head Char.isDigit rest hdrest,
      List.append_nil]
    have hne : (natDigits l).isEmpty = false := by
      cases h : natDigits l with
      | nil => exact absurd h (natDigits_ne_nil l)
      | cons a b => rfl
    rw [hne]
    simp only [Bool.false_eq_true, if_false, digitsToNat_natDigits l, if_pos hl]
    cases rest with
    | nil => rfl
    | cons c t =>
      by_cases hc : c = '.'
      · subst hc
        simp only [locBoundary, if_pos rfl] at hb
        cases t with
        | nil => simp [Identifier.parse]
        | cons c' t' =>
          have hns : isIdentStart c' = false := by simpa using hb
          simp [Identifier.parse, hns]
      · simp [hc]
  | Member l i =>
    simp only [Register.wf, Bool.and_eq_true] at hwf
    have hl : l < 2 ^ 64 := by simpa using hwf.1
    simp only [restBoundary] at hb
    simp only [Register.print, List.cons_append, List.append_assoc, Register.parse, if_pos rfl]
    have hddot : ∀ x, ('.' :: (i.chars ++ rest)).head? = some x → Char.isDigit x = false := by
      intro x hx
      simp only [List.head?_cons, Option.some.injEq] at hx
      subst hx
      decide
    rw [takeWhile_append_all Char.isDigit (natDigits l) ('.' :: (i.chars ++ rest))
        (natDigits_all_digits l),
      dropWhile_append_all Char.isDigit (natDigits l) ('.' :: (i.chars ++ rest))
        (natDigits_all_digits l),
      takeWhile_eq_nil_of_head Char.isDigit _ hddot,
      dropWhile_eq_self_of_head Char.isDigit _ hddot,
      List.append_nil]
    have hne : (natDigits l).isEmpty = false := by
      cases h : natDigits l with
      | nil => exact absurd h (natDigits_ne_nil l)
      | cons a b => rfl
    rw [hne]
    simp only [Bool.false_eq_true, if_false, digitsToNat_natDigits l, if_pos hl]
    rw [identifier_parse_print i hwf.2 rest hb]
    simp

/-- C6 counterexample: the register grammar of this layer does not hold a
multi-segment path — parsing `r3.owner.amount` consumes only the
single-segment prefix `r3.owner`, leaves `.amount` unconsumed, and printing
the parsed register does not reproduce the input string. -/
theorem register_multisegment_cex :
    Register.parse ("r3.owner.amount".toList) =
      some (".amount".toList, Register.Member 3 ⟨"owner".toList⟩) ∧
    (Register.Member 3 ⟨"owner".toList⟩).print ≠ "r3.owner.amount".toList := by
  constructor
  · decide
  · decide

/-- C6 amended: a register's textual form is `r` followed by one or more
decimal digits, optionally followed by exactly one `.` plus Identifier
segment (a Member holds a single identifier, not a multi-segment path);
for every register whose locator fits in a u64 and whose identifier is
lexically valid, parsing its printed form succeeds, consumes it wholly and
reproduces an equal register — hence printing is the exact inverse of
parsing on such canonical single-segment forms. -/
theorem register_print_parse_roundtrip (r : Register) (hwf : r.wf = true) :
    Register.parse r.print = some ([], r) := by
  have h := register_parse_print r [] hwf (by cases r <;> rfl)
  simpa using h

theorem register_print_parse_roundtrip_witness :
    Register.parse (Register.Member 3 ⟨"owner".toList⟩).print =
      some ([], Register.Member 3 ⟨"owner".toList⟩) :=
  register_print_parse_roundtrip (Register.Member 3 ⟨"owner".toList⟩) (by decide)

/-- C7: register ordering is total and compares only the locator
numerically, never the path: comparison coincides with the numeric
comparison of locators (so it is reflexive-equal, transitive and total),
`Member 0 p1 < Member 1 p2` for any identifiers, and two members of the
same locator are order-equal even when they are unequal as values. -/
theorem register_order_locator_only :
    (∀ a b : Register, Register.cmp a b = compare a.locator b.locator) ∧
    (∀ a b : Register, Register.cmp a b = Ordering.eq ↔ a.locator = b.locator) ∧
    (∀ a b : Register, Register.cmp a b = Ordering.lt ↔ a.locator < b.locator) ∧
    (∀ a b : Register, Register.cmp a b = Ordering.gt ↔ b.locator < a.locator) ∧
    (∀ a b c : Register, Register.cmp a b = Ordering.lt →
      Register.cmp b c = Ordering.lt → Register.cmp a c = Ordering.lt) ∧
    (∀ p1 p2 : Identifier, Register.cmp (.Member 0 p1) (.Member 1 p2) = Ordering.lt) ∧
    (∀ p1 p2 : Identifier, Register.cmp (.Member 0 p1) (.Member 0 p2) = Ordering.eq) ∧
    (∀ p1 p2 : Identifier, p1 ≠ p2 → Register.Member 0 p1 ≠ Register.Member 0 p2) := by
  refine ⟨fun a b => rfl, ?_, ?_, ?_, ?_, ?_, ?_, ?_⟩
  · intro a b
    exact Nat.compare_eq_eq
  · intro a b
    exact Nat.compare_eq_lt
  · intro a b
    exact Nat.compare_eq_gt
  · intro a b c hab hbc
    have h1 := Nat.compare_eq_lt.1 hab
    have h2 := Nat.compare_eq_lt.1 hbc
    exact Nat.compare_eq_lt.2 (Nat.lt_trans h1 h2)
  · intro p1 p2
    exact Nat.compare_eq_lt.2 Nat.zero_lt_one
  · intro p1 p2
    exact Nat.compare_eq_eq.2 rfl
  · intro p1 p2 hne hcontra
    exact hne (by injection hcontra)

theorem register_order_locator_only_witness :
    Register.cmp (.Member 0 ⟨"a".toList⟩) (.Member 0 ⟨"b".toList⟩) = Ordering.eq ∧
    Register.Member 0 ⟨"a".toList⟩ ≠ Register.Member 0 ⟨"b".toList⟩ :=
  ⟨register_order_locator_only.2.2.2.2.2.2.1 ⟨"a".toList⟩ ⟨"b".toList⟩,
    register_order_locator_only.2.2.2.2.2.2.2 ⟨"a".toList⟩ ⟨"b".toList⟩ (by decide)⟩

/-- C10: the register parser is prefix-based and never rejects trailing
input — for any string formed of a well-formed register's printed form
followed by a remainder that cannot extend the match, parsing succeeds,
consumes exactly the register prefix and returns the remainder; so a
multi-segment path parses as a single-segment Member plus leftover text,
and trailing garbage after a locator is returned unconsumed. -/
theorem register_parse_trailing (r : Register) (rest : List Char)
    (hwf : r.wf = true) (hb : restBoundary r rest = true) :
    Register.parse (r.print ++ rest) = some (rest, r) :=
  register_parse_print r rest hwf hb

theorem register_parse_trailing_witness :
    Register.parse ("r0.owner.amount".toList) =
      some (".amount".toList, Register.Member 0 ⟨"owner".toList⟩) ∧
    Register.parse ("r0garbage".toList) = some ("garbage".toList, Register.Locator 0) := by
  constructor
  · exact register_parse_trailing (Register.Member 0 ⟨"owner".toList⟩)
      (".amount".toList) (by decide) (by decide)
  · exact register_parse_trailing (Register.Locator 0) ("garbage".toList)
      (by decide) (by decide)

end RegisterCore

namespace Exec

theorem except_map_map {ε α β γ : Type} (f : α → β) (g : β → γ) (x : Except ε α) :
    (x.map f).map g = x.map (fun a => g (f a)) := by
  cases x <;> rfl

theorem centry_eject_plaintext (e : CEntry) :
    (CEntry.eject e).plaintext = e.plaintext.eject := by
  cases e <;> rfl

theorem cmembers_find_eject : ∀ (ms : CMembers) (i : CIdentifier),
    (ms.find i).map CPlaintext.eject = PMembers.find ms.eject i.id
  | .nil, _ => rfl
  | .cons name pt tail, i => by
    simp only [CMembers.find, CMembers.eject, PMembers.find]
    by_cases h : name.id = i.id
    · simp [h]
    · simp [h, cmembers_find_eject tail i]

theorem cpt_find_eject : ∀ (path : List CIdentifier) (pt : CPlaintext),
    (pt.find path).map CPlaintext.eject =
      Plaintext.find pt.eject (path.map CIdentifier.id)
  | [], pt => by cases pt <;> rfl
  | i :: rest, pt => by
    cases pt with
    | literal l => rfl
    | struct ms =>
      simp only [CPlaintext.find, CPlaintext.eject, List.map_cons, Plaintext.find]
      have hfind := cmembers_find_eject ms i
      cases hms : ms.find i with
      | none =>
        rw [hms] at hfind
        simp only [Option.map_none'] at hfind
        rw [← hfind]
        rfl
      | some pt' =>
        rw [hms] at hfind
        simp only [Option.map_some'] at hfind
        rw [← hfind]
        cases rest with
        | nil => rfl
        | cons j jrest =>
          simp only [List.isEmpty_cons, Bool.false_eq_true, if_false, List.map_cons]
          exact cpt_find_eject (j :: jrest) pt'

theorem findCEntry_eject : ∀ (entries : List (CIdentifier × CEntry)) (i : CIdentifier),
    (findCEntry entries i).map CEntry.eject =
      findEntry (entries.map (fun (j, e) => (j.id, e.eject))) i.id
  | [], _ => rfl
  | (name, e) :: tail, i => by
    simp only [findCEntry, List.map_cons, findEntry]
    by_cases h : name.id = i.id
    · simp [h]
    · simp [h, findCEntry_eject tail i]

theorem crecord_find_eject : ∀ (path : List CIdentifier) (r : CRecord),
    (r.find path).map CEntry.eject = Record.find r.eject (path.map CIdentifier.id)
  | [], _ => rfl
  | i :: rest, r => by
    simp only [CRecord.find, List.map_cons, Record.find, CRecord.eject]
    have hfind := findCEntry_eject r.entries i
    cases hce : findCEntry r.entries i with
    | none =>
      rw [hce] at hfind
      simp only [Option.map_none'] at hfind
      rw [← hfind]
      rfl
    | some e =>
      rw [hce] at hfind
      simp only [Option.map_some'] at hfind
      rw [← hfind]
      cases rest with
      | nil => rfl
      | cons j jrest =>
        simp only [List.isEmpty_cons, Bool.false_eq_true, if_false, List.map_cons]
        cases e with
        | Constant pt =>
          simp only [CEntry.eject]
          rw [except_map_map, ← List.map_cons, ← cpt_find_eject (j :: jrest) pt]
          cases pt.find (j :: jrest) <;> rfl
        | Public pt =>
          simp only [CEntry.eject]
          rw [except_map_map, ← List.map_cons, ← cpt_find_eject (j :: jrest) pt]
          cases pt.find (j :: jrest) <;> rfl
        | Private pt =>
          simp only [CEntry.eject]
          rw [except_map_map, ← List.map_cons, ← cpt_find_eject (j :: jrest) pt]
          cases pt.find (j :: jrest) <;> rfl

theorem cpath_ids (path : List Identifier) :
    (path.map (fun i => CIdentifier.mk i Mode.Constant)).map CIdentifier.id = path := by
  induction path with
  | nil => rfl
  | cons a t ih =>
    simp only [List.map_cons, ih]

theorem resolve_eject (r : Register) (cv : CValue) :
    (resolveCValue r cv).map CValue.eject = resolveValue r cv.eject := by
  cases r with
  | Locator l => rfl
  | Member l path =>
    cases cv with
    | Plaintext pt =>
      simp only [resolveCValue, resolveValue, CValue.eject]
      have h := cpt_find_eject (path.map (fun i => CIdentifier.mk i Mode.Constant)) pt
      rw [cpath_ids] at h
      rw [except_map_map, ← h, except_map_map]
      rfl
    | Record rec =>
      simp only [resolveCValue, resolveValue, CValue.eject]
      have h := crecord_find_eject (path.map (fun i => CIdentifier.mk i Mode.Constant)) rec
      rw [cpath_ids] at h
      rw [except_map_map, ← h, except_map_map]
      cases rec.find (path.map (fun i => CIdentifier.mk i Mode.Constant)) with
      | error e => rfl
      | ok e => cases e <;> rfl

/-- C1: fidelity of the dual-domain load. When the two register stores are
consistent (every stored circuit value ejects to the stored console value)
and the circuit caller ejects to the console caller, then for every operand
— literal, register, program ID or caller — `load_circuit` ejected equals
`load` exactly: the resolved values agree after ejection, and the two loads
pass or fail (with the same error) identically, the declared-type check
included. -/
theorem load_fidelity (regs : Registers) (operand : Operand)
    (hreg : ∀ l : Nat, (findLoc regs.circuit_registers l).map CValue.eject =
      findLoc regs.console_registers l)
    (hcaller : regs.caller_circuit.map Prod.fst = regs.caller) :
    (load_circuit regs operand).map CValue.eject = load regs operand := by
  cases operand with
  | Literal l => rfl
  | ProgramID a => cases a <;> rfl
  | Caller =>
    simp only [load, load_circuit]
    cases hc : regs.caller_circuit with
    | none =>
      rw [hc] at hcaller
      simp only [Option.map_none'] at hcaller
      rw [← hcaller]
      rfl
    | some p =>
      rcases p with ⟨a, m⟩
      rw [hc] at hcaller
      simp only [Option.map_some'] at hcaller
      rw [← hcaller]
      rfl
  | Register r =>
    simp only [load, load_circuit]
    have h := hreg r.locator
    cases hcv : findLoc regs.circuit_registers r.locator with
    | none =>
      rw [hcv] at h
      simp only [Option.map_none'] at h
      rw [← h]
      rfl
    | some cv =>
      rw [hcv] at h
      simp only [Option.map_some'] at h
      rw [← h]
      simp only []
      have hres := resolve_eject r cv
      cases hrc : resolveCValue r cv with
      | error e =>
        rw [hrc] at hres
        simp only [Except.map] at hres
        rw [← hres]
        rfl
      | ok sv =>
        rw [hrc] at hres
        simp only [Except.map] at hres
        rw [← hres]
        cases regs.register_types.get_type r with
        | error e => rfl
        | ok ty =>
          by_cases hm : matches_register_type sv.eject ty = true
          · simp only [hm, if_pos]
            rfl
          · simp only [Bool.not_eq_true] at hm
            simp only [hm, Bool.false_eq_true, if_false]
            rfl

theorem load_fidelity_witness :
    (load_circuit
        ⟨[(0, .Record ⟨[(⟨"owner".toList⟩, .Private (.literal (.U64 5)))]⟩)],
          [(0, .Record ⟨[(⟨⟨"owner".toList⟩, Mode.Constant⟩,
            .Private (.literal ⟨.U64 5, Mode.Private⟩))]⟩)],
          some 9, some (9, Mode.Private),
          ⟨[(0, .record [(⟨"owner".toList⟩, .Private (.literal .U64))])]⟩⟩
        (.Register (.Member 0 [⟨"owner".toList⟩]))).map CValue.eject =
      load
        ⟨[(0, .Record ⟨[(⟨"owner".toList⟩, .Private (.literal (.U64 5)))]⟩)],
          [(0, .Record ⟨[(⟨⟨"owner".toList⟩, Mode.Constant⟩,
            .Private (.literal ⟨.U64 5, Mode.Private⟩))]⟩)],
          some 9, some (9, Mode.Private),
          ⟨[(0, .record [(⟨"owner".toList⟩, .Private (.literal .U64))])]⟩⟩
        (.Register (.Member 0 [⟨"owner".toList⟩])) :=
  load_fidelity _ _
    (by
      intro l
      by_cases h : (0 : Nat) = l
      · simp only [findLoc, if_pos h]
        rfl
      · simp only [findLoc, if_neg h]
        rfl)
    (by rfl)

/-- C8: for a register operand, a locator with no stored value fails the
load with UndefinedRegister; and when the locator holds a record whose path
selects a present entry (and the declared type agrees), the load returns
exactly that entry's inner plaintext with its Constant/Public/Private
visibility tag discarded. -/
theorem load_register_behavior (regs : Registers) :
    (∀ r : Register, findLoc regs.console_registers r.locator = none →
      load regs (.Register r) = .error .UndefinedRegister) ∧
    (∀ (l : Nat) (path : List Identifier) (rec : Record) (e : Entry) (ty : RegisterType),
      findLoc regs.console_registers l = some (.Record rec) →
      rec.find path = .ok e →
      regs.register_types.get_type (.Member l path) = .ok ty →
      matches_register_type (.Plaintext e.plaintext) ty = true →
      load regs (.Register (.Member l path)) = .ok (.Plaintext e.plaintext)) := by
  constructor
  · intro r h
    simp only [load, h]
  · intro l path rec e ty h1 h2 h3 h4
    have hloc : (Register.Member l path).locator = l := rfl
    simp only [load, hloc, h1, resolveValue, h2, Except.map, h3, h4, if_pos]

theorem load_register_behavior_witness :
    load
        ⟨[(0, .Record ⟨[(⟨"owner".toList⟩, .Private (.literal (.U64 5)))]⟩)],
          [], some 9, some (9, Mode.Private),
          ⟨[(0, .record [(⟨"owner".toList⟩, .Private (.literal .U64))])]⟩⟩
        (.Register (.Locator 3)) = .error .UndefinedRegister ∧
    load
        ⟨[(0, .Record ⟨[(⟨"owner".toList⟩, .Private (.literal (.U64 5)))]⟩)],
          [], some 9, some (9, Mode.Private),
          ⟨[(0, .record [(⟨"owner".toList⟩, .Private (.literal .U64))])]⟩⟩
        (.Register (.Member 0 [⟨"owner".toList⟩])) =
      .ok (.Plaintext (.literal (.U64 5))) :=
  ⟨(load_register_behavior _).1 (.Locator 3) rfl,
    (load_register_behavior _).2 0 [⟨"owner".toList⟩]
      ⟨[(⟨"owner".toList⟩, .Private (.literal (.U64 5)))]⟩
      (.Private (.literal (.U64 5))) (.plaintext (.literal .U64))
      rfl rfl rfl rfl⟩

theorem le_bytes_roundtrip (k n : Nat) : leBytesToNat (natToLeBytes k n) = n % 256 ^ k := by
  induction k generalizing n with
  | zero => simp [natToLeBytes, leBytesToNat, Nat.mod_one]
  | succ k ih =>
    have h2 : (256 : Nat) ^ (k + 1) = 256 * 256 ^ k := by ring
    have hm : n % 256 ^ (k + 1) = n % 256 + 256 * (n / 256 % 256 ^ k) := by
      rw [h2, Nat.mod_mul]
    simp only [natToLeBytes, leBytesToNat, ih, hm]

theorem natToLeBytes_length (k n : Nat) : (natToLeBytes k n).length = k := by
  induction k generalizing n with
  | zero => rfl
  | succ k ih => simp [natToLeBytes, ih]

theorem takeBytes_exact (xs rest : List Nat) :
    takeBytes xs.length (xs ++ rest) = some (rest, xs) := by
  simp only [takeBytes]
  rw [if_pos (by simp), List.take_left, List.drop_left]

theorem takeBytes_le (k n : Nat) (rest : List Nat) :
    takeBytes k (natToLeBytes k n ++ rest) = some (rest, natToLeBytes k n) := by
  have h := takeBytes_exact (natToLeBytes k n) rest
  rwa [natToLeBytes_length] at h

theorem readLitBytes_roundtrip (l : Literal) (hwf : l.wf = true) (rest : List Nat) :
    readLitBytes (l.toBytes ++ rest) = some (rest, l) := by
  cases l with
  | Boolean b => cases b <;> rfl
  | U64 v =>
    have hv : v % 256 ^ 8 = v := Nat.mod_eq_of_lt (by
      have h : v < 2 ^ 64 := by simpa [Literal.wf] using hwf
      calc v < 2 ^ 64 := h
        _ ≤ 256 ^ 8 := by norm_num)
    simp only [Literal.toBytes, List.cons_append, readLitBytes, takeBytes_le,
      Option.map_some', le_bytes_roundtrip]
    rw [hv]
  | Field v =>
    have hv : v % 256 ^ 32 = v := Nat.mod_eq_of_lt (by
      have h : v < 2 ^ 256 := by simpa [Literal.wf] using hwf
      calc v < 2 ^ 256 := h
        _ ≤ 256 ^ 32 := by norm_num)
    simp only [Literal.toBytes, List.cons_append, readLitBytes, takeBytes_le,
      Option.map_some', le_bytes_roundtrip]
    rw [hv]
  | Scalar v =>
    have hv : v % 256 ^ 32 = v := Nat.mod_eq_of_lt (by
      have h : v < 2 ^ 256 := by simpa [Literal.wf] using hwf
      calc v < 2 ^ 256 := h
        _ ≤ 256 ^ 32 := by norm_num)
    simp only [Literal.toBytes, List.cons_append, readLitBytes, takeBytes_le,
      Option.map_some', le_bytes_roundtrip]
    rw [hv]
  | Group v =>
    have hv : v % 256 ^ 32 = v := Nat.mod_eq_of_lt (by
      have h : v < 2 ^ 256 := by simpa [Literal.wf] using hwf
      calc v < 2 ^ 256 := h
        _ ≤ 256 ^ 32 := by norm_num)
    simp only [Literal.toBytes, List.cons_append, readLitBytes, takeBytes_le,
      Option.map_some', le_bytes_roundtrip]
    rw [hv]
  | Address a =>
    have hv : a % 256 ^ 32 = a := Nat.mod_eq_of_lt (by
      have h : a < 2 ^ 256 := by simpa [Literal.wf] using hwf
      calc a < 2 ^ 256 := h
        _ ≤ 256 ^ 32 := by norm_num)
    simp only [Literal.toBytes, List.cons_append, readLitBytes, takeBytes_le,
      Option.map_some', le_bytes_roundtrip]
    rw [hv]

theorem readIdBytes_roundtrip (i : Identifier) (rest : List Nat) :
    readIdBytes (idBytes i ++ rest) = some (rest, i) := by
  rcases i with ⟨chars⟩
  simp only [idBytes, List.cons_append, readIdBytes]
  have hmap : ∀ cs : List Char, (cs.map Char.toNat).map Char.ofNat = cs := by
    intro cs
    induction cs with
    | nil => rfl
    | cons c t ih => simp only [List.map_cons, Char.ofNat_toNat, ih]
  have h := takeBytes_exact (chars.map Char.toNat) rest
  rw [List.length_map] at h
  rw [h]
  simp [hmap chars]

theorem idBytes_length_pos (i : Identifier) : 1 ≤ (idBytes i).length := by
  simp [idBytes]

mutual

theorem readPtBytes_roundtrip : ∀ (pt : Plaintext), pt.wf = true →
    ∀ (rest : List Nat) (fuel : Nat), (pt.toBytes ++ rest).length < fuel →
    readPtBytes fuel (pt.toBytes ++ rest) = some (rest, pt)
  | .literal l, hwf, rest, fuel, hf => by
    cases fuel with
    | zero => exact absurd hf (by omega)
    | succ f =>
      simp only [Plaintext.toBytes, List.cons_append, readPtBytes]
      rw [readLitBytes_roundtrip l (by simpa [Plaintext.wf] using hwf) rest]
      rfl
  | .struct ms, hwf, rest, fuel, hf => by
    cases fuel with
    | zero => exact absurd hf (by omega)
    | succ f =>
      have hwf' : ms.wf = true := by
        simp only [Plaintext.wf, Bool.and_eq_true] at hwf
        exact hwf.2
      simp only [Plaintext.toBytes, List.cons_append, readPtBytes]
      rw [readMembersBytes_roundtrip ms hwf' rest f (by
        simp only [Plaintext.toBytes, List.cons_append, List.length_cons,
          List.length_append] at hf ⊢
        omega)]
      rfl

theorem readMembersBytes_roundtrip : ∀ (ms : PMembers), ms.wf = true →
    ∀ (rest : List Nat) (fuel : Nat), (ms.toBytes ++ rest).length < fuel →
    readMembersBytes fuel ms.length (ms.toBytes ++ rest) = some (rest, ms)
  | .nil, _, rest, fuel, _ => by
    simp [PMembers.length, PMembers.toBytes, readMembersBytes]
  | .cons i pt tail, hwf, rest, fuel, hf => by
    cases fuel with
    | zero => exact absurd hf (by omega)
    | succ f =>
      have hwf' : pt.wf = true ∧ tail.wf = true := by
        simp only [PMembers.wf, Bool.and_eq_true] at hwf
        exact ⟨hwf.1.2, hwf.2⟩
      have hidp := idBytes_length_pos i
      simp only [PMembers.toBytes, List.append_assoc, List.length_append] at hf
      simp only [PMembers.length, PMembers.toBytes, List.append_assoc, readMembersBytes]
      rw [readIdBytes_roundtrip i (pt.toBytes ++ (tail.toBytes ++ rest))]
      simp only []
      rw [readPtBytes_roundtrip pt hwf'.1 (tail.toBytes ++ rest) (f + 1) (by
        simp only [List.length_append]
        omega)]
      simp only []
      rw [readMembersBytes_roundtrip tail hwf'.2 rest (f + 1) (by
        simp only [List.length_append]
        omega)]
      rfl

end

theorem entry_toBytes_length (e : Entry) :
    (e.toBytes).length = e.plaintext.toBytes.length + 1 := by
  cases e <;> simp [Entry.toBytes, Entry.plaintext]

theorem readEntryBytes_roundtrip (e : Entry) (hwf : e.wf = true) (rest : List Nat)
    (fuel : Nat) (hf : (e.plaintext.toBytes ++ rest).length < fuel) :
    readEntryBytes fuel (e.toBytes ++ rest) = some (rest, e) := by
  cases e with
  | Constant pt =>
    simp only [Entry.toBytes, List.cons_append, readEntryBytes]
    rw [readPtBytes_roundtrip pt hwf rest fuel hf]
    rfl
  | Public pt =>
    simp only [Entry.toBytes, List.cons_append, readEntryBytes]
    rw [readPtBytes_roundtrip pt hwf rest fuel hf]
    rfl
  | Private pt =>
    simp only [Entry.toBytes, List.cons_append, readEntryBytes]
    rw [readPtBytes_roundtrip pt hwf rest fuel hf]
    rfl

theorem readEntriesBytes_roundtrip : ∀ (es : List (Identifier × Entry)),
    es.all (fun p => p.2.wf) = true → ∀ (rest : List Nat) (fuel : Nat),
    (((es.map (fun (i, e) => idBytes i ++ e.toBytes)).flatten ++ rest).length < fuel) →
    readEntriesBytes fuel es.length
        ((es.map (fun (i, e) => idBytes i ++ e.toBytes)).flatten ++ rest) =
      some (rest, es)
  | [], _, rest, fuel, _ => by
    simp [readEntriesBytes]
  | (i, e) :: tl, hwf, rest, fuel, hf => by
    have hwf' : e.wf = true ∧ tl.all (fun p => p.2.wf) = true := by
      simp only [List.all_cons, Bool.and_eq_true] at hwf
      exact hwf
    have hidp := idBytes_length_pos i
    have helen := entry_toBytes_length e
    simp only [List.map_cons, List.flatten_cons, List.append_assoc,
      List.length_append] at hf
    simp only [List.map_cons, List.flatten_cons, List.length_cons, List.append_assoc,
      readEntriesBytes]
    rw [readIdBytes_roundtrip i]
    simp only []
    rw [readEntryBytes_roundtrip e hwf'.1 _ fuel (by
      simp only [List.length_append]
      omega)]
    simp only []
    rw [readEntriesBytes_roundtrip tl hwf'.2 rest fuel (by
      simp only [List.length_append]
      omega)]
    rfl

theorem record_entries_wf (r : Record) (hwf : r.wf = true) :
    r.entries.all (fun p => p.2.wf) = true := by
  simp only [Record.wf, Bool.and_eq_true] at hwf
  have h := hwf.2
  simp only [List.all_eq_true] at h ⊢
  intro p hp
  have hh := h p hp
  simp only [Bool.and_eq_true] at hh
  exact hh.2

theorem value_bytes_roundtrip (v : Value) (hwf : v.wf = true) :
    Value.from_bytes_le v.to_bytes_le = some v := by
  cases v with
  | Plaintext pt =>
    have h := readPtBytes_roundtrip pt hwf [] ((0 :: pt.toBytes).length + 1) (by
      simp only [List.append_nil, List.length_cons]
      omega)
    rw [List.append_nil] at h
    simp only [Value.from_bytes_le, Value.to_bytes_le, readValueBytes, List.length_cons]
    simp only [List.length_cons] at h
    rw [h]
    rfl
  | Record r =>
    have hall := record_entries_wf r hwf
    have h := readEntriesBytes_roundtrip r.entries hall []
      ((1 :: Record.toBytes r).length + 1) (by
        simp only [List.append_nil, Record.toBytes, List.length_cons]
        omega)
    rw [List.append_nil] at h
    simp only [Value.from_bytes_le, Value.to_bytes_le, Record.toBytes, readValueBytes,
      List.length_cons]
    simp only [Record.toBytes, List.length_cons] at h
    rw [h]
    rfl

theorem value_framed_roundtrip (v : Value) (hwf : v.wf = true)
    (hlen : v.to_bytes_le.length < 2 ^ 64) :
    Value.from_bytes_framed v.to_bytes_framed = some v := by
  simp only [Value.from_bytes_framed, Value.to_bytes_framed]
  have hlen8 : (natToLeBytes 8 v.to_bytes_le.length).length = 8 := natToLeBytes_length 8 _
  have hge : 8 ≤ (natToLeBytes 8 v.to_bytes_le.length ++ v.to_bytes_le).length := by
    simp [List.length_append, hlen8]
  rw [if_pos hge]
  rw [List.take_left' hlen8, List.drop_left' hlen8]
  rw [le_bytes_roundtrip]
  have hmod : v.to_bytes_le.length % 256 ^ 8 = v.to_bytes_le.length :=
    Nat.mod_eq_of_lt (lt_of_lt_of_le hlen (by norm_num))
  rw [hmod, if_pos rfl]
  exact value_bytes_roundtrip v hwf

theorem head_not_pred {p : Char → Bool} {c : Char} (t : List Char) (hc : p c = false) :
    ∀ x, (c :: t).head? = some x → p x = false := by
  intro x hx
  have hcx : c = x := by simpa using hx
  subst hcx
  exact hc

theorem textBoundary_head (rest : List Char) (hb : textBoundary rest = true) :
    ∀ x, rest.head? = some x → x = ',' ∨ x = '}' ∨ x = '.' := by
  intro x hx
  cases rest with
  | nil => simp at hx
  | cons c t =>
    have hcx : c = x := by simpa using hx
    subst hcx
    simp only [textBoundary] at hb
    rcases Bool.or_eq_true_iff.1 hb with h | h
    · rcases Bool.or_eq_true_iff.1 h with h1 | h1
      · exact Or.inl (eq_of_beq h1)
      · exact Or.inr (Or.inl (eq_of_beq h1))
    · exact Or.inr (Or.inr (eq_of_beq h))

theorem textBoundary_no_ident (rest : List Char) (hb : textBoundary rest = true) :
    ∀ x, rest.head? = some x → isIdentChar x = false := by
  intro x hx
  rcases textBoundary_head rest hb x hx with rfl | rfl | rfl <;> decide

theorem textBoundary_no_digit (rest : List Char) (hb : textBoundary rest = true) :
    ∀ x, rest.head? = some x → Char.isDigit x = false := by
  intro x hx
  rcases textBoundary_head rest hb x hx with rfl | rfl | rfl <;> decide

theorem natDigits_all_ident (n : Nat) : (natDigits n).all isIdentChar = true := by
  have h := natDigits_all_digits n
  simp only [List.all_eq_true] at h ⊢
  intro c hc
  have hd := h c hc
  simp [isIdentChar, hd]

theorem readLit_roundtrip (l : Literal) (rest : List Char)
    (hb : textBoundary rest = true) :
    readLit (l.print ++ rest) = some (rest, l) := by
  have hni := textBoundary_no_ident rest hb
  have hnd := textBoundary_no_digit rest hb
  have hTi := takeWhile_eq_nil_of_head isIdentChar rest hni
  have hDi := dropWhile_eq_self_of_head isIdentChar rest hni
  have hTd := takeWhile_eq_nil_of_head Char.isDigit rest hnd
  have hDd := dropWhile_eq_self_of_head Char.isDigit rest hnd
  cases l with
  | Boolean b =>
    cases b <;>
      simp +decide [Literal.print, readLit, List.takeWhile_cons, List.dropWhile_cons,
        hTi, hDi]
  | U64 v =>
    obtain ⟨d, ds, hnd'⟩ := List.exists_cons_of_ne_nil (natDigits_ne_nil v)
    have hall := natDigits_all_digits v
    have hdg := digitsToNat_natDigits v
    rw [hnd'] at hall hdg
    simp only [List.all_cons, Bool.and_eq_true] at hall
    simp only [Literal.print, hnd', List.append_assoc, List.cons_append]
    simp +decide [readLit, List.takeWhile_cons, List.dropWhile_cons, hall.1,
      takeWhile_append_all Char.isDigit ds _ hall.2,
      dropWhile_append_all Char.isDigit ds _ hall.2, hTi, hDi, hTd, hDd, hdg]
  | Field v =>
    obtain ⟨d, ds, hnd'⟩ := List.exists_cons_of_ne_nil (natDigits_ne_nil v)
    have hall := natDigits_all_digits v
    have hdg := digitsToNat_natDigits v
    rw [hnd'] at hall hdg
    simp only [List.all_cons, Bool.and_eq_true] at hall
    simp only [Literal.print, hnd', List.append_assoc, List.cons_append]
    simp +decide [readLit, List.takeWhile_cons, List.dropWhile_cons, hall.1,
      takeWhile_append_all Char.isDigit ds _ hall.2,
      dropWhile_append_all Char.isDigit ds _ hall.2, hTi, hDi, hTd, hDd, hdg]
  | Scalar v =>
    obtain ⟨d, ds, hnd'⟩ := List.exists_cons_of_ne_nil (natDigits_ne_nil v)
    have hall := natDigits_all_digits v
    have hdg := digitsToNat_natDigits v
    rw [hnd'] at hall hdg
    simp only [List.all_cons, Bool.and_eq_true] at hall
    simp only [Literal.print, hnd', List.append_assoc, List.cons_append]
    simp +decide [readLit, List.takeWhile_cons, List.dropWhile_cons, hall.1,
      takeWhile_append_all Char.isDigit ds _ hall.2,
      dropWhile_append_all Char.isDigit ds _ hall.2, hTi, hDi, hTd, hDd, hdg]
  | Group v =>
    obtain ⟨d, ds, hnd'⟩ := List.exists_cons_of_ne_nil (natDigits_ne_nil v)
    have hall := natDigits_all_digits v
    have hdg := digitsToNat_natDigits v
    rw [hnd'] at hall hdg
    simp only [List.all_cons, Bool.and_eq_true] at hall
    simp only [Literal.print, hnd', List.append_assoc, List.cons_append]
    simp +decide [readLit, List.takeWhile_cons, List.dropWhile_cons, hall.1,
      takeWhile_append_all Char.isDigit ds _ hall.2,
      dropWhile_append_all Char.isDigit ds _ hall.2, hTi, hDi, hTd, hDd, hdg]
  | Address a =>
    obtain ⟨d, ds, hnd'⟩ := List.exists_cons_of_ne_nil (natDigits_ne_nil a)
    have hall := natDigits_all_digits a
    have hallid := natDigits_all_ident a
    have hdg := digitsToNat_natDigits a
    rw [hnd'] at hall hallid hdg
    have hall' := hall
    simp only [List.all_cons, Bool.and_eq_true] at hall' hallid
    simp only [Literal.print, hnd', List.append_assoc, List.cons_append]
    simp +decide [readLit, List.takeWhile_cons, List.dropWhile_cons, hallid.1,
      hall'.1, hall'.2, takeWhile_append_all isIdentChar ds _ hallid.2,
      dropWhile_append_all isIdentChar ds _ hallid.2, hTi, hDi, hdg, hall]

theorem identStart_ne_brace (c : Char) (h : isIdentStart c = true) : ¬(c = '}') := by
  intro heq
  subst heq
  exact absurd h (by decide)

theorem readPt_literal (f : Nat) (l : Literal) (rest : List Char)
    (hb : textBoundary rest = true) :
    readPt (f + 1) (l.print ++ rest) = some (rest, Plaintext.literal l) := by
  have hr := readLit_roundtrip l rest hb
  have hmain : ∀ (c : Char) (cs : List Char), l.print = c :: cs → ¬(c = '{') →
      readPt (f + 1) (l.print ++ rest) = some (rest, Plaintext.literal l) := by
    intro c cs hp hc
    rw [hp] at hr
    simp only [List.cons_append] at hr
    rw [hp]
    simp only [List.cons_append, readPt]
    rw [if_neg hc, hr]
    rfl
  cases l with
  | Boolean b =>
    cases b with
    | false => exact hmain 'f' _ rfl (by decide)
    | true => exact hmain 't' _ rfl (by decide)
  | U64 v =>
    obtain ⟨d, ds, hnd'⟩ := List.exists_cons_of_ne_nil (natDigits_ne_nil v)
    have hd : d.isDigit = true := by
      have h := natDigits_all_digits v
      rw [hnd'] at h
      simp only [List.all_cons, Bool.and_eq_true] at h
      exact h.1
    refine hmain d (ds ++ ('u' :: '6' :: '4' :: [])) (by simp [Literal.print, hnd']) ?_
    intro heq
    rw [heq] at hd
    exact absurd hd (by decide)
  | Field v =>
    obtain ⟨d, ds, hnd'⟩ := List.exists_cons_of_ne_nil (natDigits_ne_nil v)
    have hd : d.isDigit = true := by
      have h := natDigits_all_digits v
      rw [hnd'] at h
      simp only [List.all_cons, Bool.and_eq_true] at h
      exact h.1
    refine hmain d (ds ++ ('f' :: 'i' :: 'e' :: 'l' :: 'd' :: []))
      (by simp [Literal.print, hnd']) ?_
    intro heq
    rw [heq] at hd
    exact absurd hd (by decide)
  | Scalar v =>
    obtain ⟨d, ds, hnd'⟩ := List.exists_cons_of_ne_nil (natDigits_ne_nil v)
    have hd : d.isDigit = true := by
      have h := natDigits_all_digits v
      rw [hnd'] at h
      simp only [List.all_cons, Bool.and_eq_true] at h
      exact h.1
    refine hmain d (ds ++ ('s' :: 'c' :: 'a' :: 'l' :: 'a' :: 'r' :: []))
      (by simp [Literal.print, hnd']) ?_
    intro heq
    rw [heq] at hd
    exact absurd hd (by decide)
  | Group v =>
    obtain ⟨d, ds, hnd'⟩ := List.exists_cons_of_ne_nil (natDigits_ne_nil v)
    have hd : d.isDigit = true := by
      have h := natDigits_all_digits v
      rw [hnd'] at h
      simp only [List.all_cons, Bool.and_eq_true] at h
      exact h.1
    refine hmain d (ds ++ ('g' :: 'r' :: 'o' :: 'u' :: 'p' :: []))
      (by simp [Literal.print, hnd']) ?_
    intro heq
    rw [heq] at hd
    exact absurd hd (by decide)
  | Address a =>
    exact hmain 'a' _ rfl (by decide)

mutual

theorem readPt_roundtrip : ∀ (pt : Plaintext), pt.wf = true →
    ∀ (rest : List Char) (fuel : Nat), (pt.print ++ rest).length < fuel →
    textBoundary rest = true →
    readPt fuel (pt.print ++ rest) = some (rest, pt)
  | .literal l, _, rest, fuel, hf, hb => by
    cases fuel with
    | zero => exact absurd hf (by omega)
    | succ f => exact readPt_literal f l rest hb
  | .struct ms, hwf, rest, fuel, hf, hb => by
    cases fuel with
    | zero => exact absurd hf (by omega)
    | succ f =>
      have hwf' : ms.wf = true := by
        simp only [Plaintext.wf, Bool.and_eq_true] at hwf
        exact hwf.2
      simp only [Plaintext.print, List.cons_append, List.append_assoc,
        List.singleton_append, List.nil_append, readPt, if_true]
      rw [readPMembers_roundtrip ms hwf' rest f (by
        simp only [Plaintext.print, List.cons_append, List.append_assoc,
          List.singleton_append, List.nil_append, List.length_cons,
          List.length_append] at hf ⊢
        omega)]
      rfl

theorem readPMembers_roundtrip : ∀ (ms : PMembers), ms.wf = true →
    ∀ (rest : List Char) (fuel : Nat),
    (ms.print ++ '}' :: rest).length < fuel →
    readPMembers fuel (ms.print ++ '}' :: rest) = some ('}' :: rest, ms)
  | .nil, _, rest, fuel, hf => by
    cases fuel with
    | zero => exact absurd hf (by omega)
    | succ f => simp [PMembers.print, readPMembers]
  | .cons i pt tail, hwf, rest, fuel, hf => by
    cases fuel with
    | zero => exact absurd hf (by omega)
    | succ f =>
      have hwfs : i.wf = true ∧ pt.wf = true ∧ tail.wf = true := by
        simp only [PMembers.wf, Bool.and_eq_true] at hwf
        exact ⟨hwf.1.1.1, hwf.1.2, hwf.2⟩
      obtain ⟨c, cs, hc⟩ : ∃ c cs, i.chars = c :: cs := by
        rcases hchars : i.chars with _ | ⟨c, cs⟩
        · rw [Identifier.wf, hchars] at hwfs
          simp at hwfs
        · exact ⟨c, cs, rfl⟩
      have hstart : isIdentStart c = true := by
        have h := hwfs.1
        rw [Identifier.wf, hc] at h
        simp only [Bool.and_eq_true] at h
        exact h.1
      cases tail with
      | nil =>
        have hid := identifier_parse_print i hwfs.1
          (':' :: (pt.print ++ '}' :: rest)) (by rfl)
        rw [hc] at hid
        simp only [List.cons_append] at hid
        simp only [PMembers.print, hc, List.cons_append, List.append_assoc, readPMembers]
        rw [if_neg (identStart_ne_brace c hstart), hid]
        simp only [if_true]
        rw [readPt_roundtrip pt hwfs.2.1 ('}' :: rest) f (by
          simp only [PMembers.print, hc, List.cons_append, List.append_assoc,
            List.length_cons, List.length_append] at hf ⊢
          omega) (by rfl)]
        rfl
      | cons j q tl =>
        have hid := identifier_parse_print i hwfs.1
          (':' :: (pt.print ++ ',' :: ((PMembers.cons j q tl).print ++ '}' :: rest)))
          (by rfl)
        rw [hc] at hid
        simp only [List.cons_append] at hid
        simp only [PMembers.print, hc, List.cons_append, List.append_assoc, readPMembers]
        rw [if_neg (identStart_ne_brace c hstart), hid]
        simp only [if_true]
        rw [readPt_roundtrip pt hwfs.2.1
          (',' :: ((PMembers.cons j q tl).print ++ '}' :: rest)) f (by
            simp only [PMembers.print, hc, List.cons_append, List.append_assoc,
              List.length_cons, List.length_append] at hf ⊢
            omega) (by rfl)]
        simp only [if_true]
        rw [readPMembers_roundtrip (PMembers.cons j q tl) hwfs.2.2 rest f (by
          simp only [PMembers.print, hc, List.cons_append, List.append_assoc,
            List.length_cons, List.length_append] at hf ⊢
          omega)]
        rfl

end

theorem readEntry_roundtrip (e : Entry) (hwf : e.wf = true) (rest : List Char)
    (fuel : Nat) (hf : (e.print ++ rest).length < fuel) (hb : textBoundary rest = true) :
    readEntry fuel (e.print ++ rest) = some (rest, e) := by
  have hni := textBoundary_no_ident rest hb
  have hTi := takeWhile_eq_nil_of_head isIdentChar rest hni
  have hDi := dropWhile_eq_self_of_head isIdentChar rest hni
  have hwf' : e.plaintext.wf = true := hwf
  cases e with
  | Constant pt =>
    simp only [Entry.print, Entry.plaintext, Entry.visText, List.append_assoc,
      List.cons_append, List.nil_append, readEntry]
    rw [readPt_roundtrip pt hwf'
      ('.' :: 'c' :: 'o' :: 'n' :: 's' :: 't' :: 'a' :: 'n' :: 't' :: rest) fuel
      (by
        simp only [Entry.print, Entry.plaintext, Entry.visText, List.append_assoc,
          List.cons_append, List.nil_append, List.length_append, List.length_cons] at hf ⊢
        omega)
      (by rfl)]
    simp +decide [List.takeWhile_cons, List.dropWhile_cons, hTi, hDi]
  | Public pt =>
    simp only [Entry.print, Entry.plaintext, Entry.visText, List.append_assoc,
      List.cons_append, List.nil_append, readEntry]
    rw [readPt_roundtrip pt hwf'
      ('.' :: 'p' :: 'u' :: 'b' :: 'l' :: 'i' :: 'c' :: rest) fuel
      (by
        simp only [Entry.print, Entry.plaintext, Entry.visText, List.append_assoc,
          List.cons_append, List.nil_append, List.length_append, List.length_cons] at hf ⊢
        omega)
      (by rfl)]
    simp +decide [List.takeWhile_cons, List.dropWhile_cons, hTi, hDi]
  | Private pt =>
    simp only [Entry.print, Entry.plaintext, Entry.visText, List.append_assoc,
      List.cons_append, List.nil_append, readEntry]
    rw [readPt_roundtrip pt hwf'
      ('.' :: 'p' :: 'r' :: 'i' :: 'v' :: 'a' :: 't' :: 'e' :: rest) fuel
      (by
        simp only [Entry.print, Entry.plaintext, Entry.visText, List.append_assoc,
          List.cons_append, List.nil_append, List.length_append, List.length_cons] at hf ⊢
        omega)
      (by rfl)]
    simp +decide [List.takeWhile_cons, List.dropWhile_cons, hTi, hDi]

theorem readEntries_roundtrip : ∀ (es : List (Identifier × Entry)),
    es.all (fun p => p.1.wf && p.2.wf) = true →
    ∀ (rest : List Char) (fuel : Nat),
    (printEntries es ++ '}' :: rest).length < fuel →
    readEntries fuel (printEntries es ++ '}' :: rest) = some ('}' :: rest, es)
  | [], _, rest, fuel, hf => by
    cases fuel with
    | zero => exact absurd hf (by omega)
    | succ f => simp [printEntries, readEntries]
  | (i, e) :: tl, hwf, rest, fuel, hf => by
    cases fuel with
    | zero => exact absurd hf (by omega)
    | succ f =>
      have hwfs : i.wf = true ∧ e.wf = true ∧ tl.all (fun p => p.1.wf && p.2.wf) = true := by
        simp only [List.all_cons, Bool.and_eq_true] at hwf
        exact ⟨hwf.1.1, hwf.1.2, hwf.2⟩
      obtain ⟨c, cs, hc⟩ : ∃ c cs, i.chars = c :: cs := by
        rcases hchars : i.chars with _ | ⟨c, cs⟩
        · rw [Identifier.wf, hchars] at hwfs
          simp at hwfs
        · exact ⟨c, cs, rfl⟩
      have hstart : isIdentStart c = true := by
        have h := hwfs.1
        rw [Identifier.wf, hc] at h
        simp only [Bool.and_eq_true] at h
        exact h.1
      cases tl with
      | nil =>
        have hid := identifier_parse_print i hwfs.1
          (':' :: (e.print ++ '}' :: rest)) (by rfl)
        rw [hc] at hid
        simp only [List.cons_append] at hid
        simp only [printEntries, hc, List.cons_append, List.append_assoc, readEntries]
        rw [if_neg (identStart_ne_brace c hstart), hid]
        simp only [if_true]
        rw [readEntry_roundtrip e hwfs.2.1 ('}' :: rest) f (by
          simp only [printEntries, hc, List.cons_append, List.append_assoc,
            List.length_cons, List.length_append] at hf ⊢
          omega) (by rfl)]
        rfl
      | cons p2 tl2 =>
        have hid := identifier_parse_print i hwfs.1
          (':' :: (e.print ++ ',' :: (printEntries (p2 :: tl2) ++ '}' :: rest)))
          (by rfl)
        rw [hc] at hid
        simp only [List.cons_append] at hid
        simp only [printEntries, hc, List.cons_append, List.append_assoc, readEntries]
        rw [if_neg (identStart_ne_brace c hstart), hid]
        simp only [if_true]
        rw [readEntry_roundtrip e hwfs.2.1
          (',' :: (printEntries (p2 :: tl2) ++ '}' :: rest)) f (by
            simp only [printEntries, hc, List.cons_append, List.append_assoc,
              List.length_cons, List.length_append] at hf ⊢
            omega) (by rfl)]
        simp only [if_true]
        rw [readEntries_roundtrip (p2 :: tl2) hwfs.2.2 rest f (by
          simp only [printEntries, hc, List.cons_append, List.append_assoc,
            List.length_cons, List.length_append] at hf ⊢
          omega)]
        rfl

theorem record_entries_wf_id (r : Record) (hwf : r.wf = true) :
    r.entries.all (fun p => p.1.wf && p.2.wf) = true := by
  simp only [Record.wf, Bool.and_eq_true] at hwf
  have h := hwf.2
  simp only [List.all_eq_true] at h ⊢
  intro p hp
  have hh := h p hp
  simp only [Bool.and_eq_true] at hh ⊢
  exact ⟨hh.1.1, hh.2⟩

theorem readRecord_roundtrip (r : Record) (hwf : r.wf = true) (rest : List Char)
    (fuel : Nat) (hf : (r.print ++ rest).length < fuel) :
    readRecord fuel (r.print ++ rest) = some (rest, r) := by
  have hall := record_entries_wf_id r hwf
  simp only [Record.print, List.cons_append, List.append_assoc, List.singleton_append,
    List.nil_append, readRecord, if_true]
  rw [readEntries_roundtrip r.entries hall rest fuel (by
    simp only [Record.print, List.cons_append, List.append_assoc, List.singleton_append,
      List.nil_append, List.length_cons, List.length_append] at hf ⊢
    omega)]
  rfl

theorem readPt_record_none (r : Record) (hwf : r.wf = true) (fuel : Nat)
    (hfuel : r.print.length ≤ fuel + 2) :
    readPt (fuel + 2) r.print = none := by
  obtain ⟨⟨i, e⟩, tl, hes⟩ : ∃ p tl, r.entries = p :: tl := by
    rcases h : r.entries with _ | ⟨p, tl⟩
    · exfalso
      simp only [Record.wf, h] at hwf
      simp at hwf
    · exact ⟨p, tl, rfl⟩
  have hall := record_entries_wf_id r hwf
  rw [hes] at hall
  simp only [List.all_cons, Bool.and_eq_true] at hall
  have hiwf : i.wf = true := hall.1.1
  have hewf : e.plaintext.wf = true := hall.1.2
  obtain ⟨c, cs, hc⟩ : ∃ c cs, i.chars = c :: cs := by
    rcases hchars : i.chars with _ | ⟨c, cs⟩
    · rw [Identifier.wf, hchars] at hiwf
      simp at hiwf
    · exact ⟨c, cs, rfl⟩
  have hstart : isIdentStart c = true := by
    rw [Identifier.wf, hc] at hiwf
    simp only [Bool.and_eq_true] at hiwf
    exact hiwf.1
  cases tl with
  | nil =>
    have hid := identifier_parse_print i hall.1.1
      (':' :: (e.plaintext.print ++ '.' :: (e.visText ++ ['}']))) (by rfl)
    rw [hc] at hid
    simp only [List.cons_append] at hid
    simp only [Record.print, hes, printEntries, Entry.print, hc, List.cons_append,
      List.append_assoc, List.singleton_append, List.nil_append,
      List.length_cons, List.length_append] at hfuel ⊢
    rw [show fuel + 2 = (fuel + 1) + 1 from rfl]
    simp only [readPt, if_true]
    simp only [readPMembers]
    rw [if_neg (identStart_ne_brace c hstart), hid]
    simp only [if_true]
    rw [readPt_roundtrip e.plaintext hewf ('.' :: (e.visText ++ ['}'])) fuel (by
      simp only [List.length_cons, List.length_append]
      omega) (by rfl)]
    rfl
  | cons p2 tl2 =>
    have hid := identifier_parse_print i hall.1.1
      (':' :: (e.plaintext.print ++ '.' ::
        (e.visText ++ ',' :: (printEntries (p2 :: tl2) ++ ['}'])))) (by rfl)
    rw [hc] at hid
    simp only [List.cons_append] at hid
    simp only [Record.print, hes, printEntries, Entry.print, hc, List.cons_append,
      List.append_assoc, List.singleton_append, List.nil_append,
      List.length_cons, List.length_append] at hfuel ⊢
    rw [show fuel + 2 = (fuel + 1) + 1 from rfl]
    simp only [readPt, if_true]
    simp only [readPMembers]
    rw [if_neg (identStart_ne_brace c hstart), hid]
    simp only [if_true]
    rw [readPt_roundtrip e.plaintext hewf
      ('.' :: (e.visText ++ ',' :: (printEntries (p2 :: tl2) ++ ['}']))) fuel (by
        simp only [List.length_cons, List.length_append]
        omega) (by rfl)]
    rfl

theorem value_text_roundtrip (v : Value) (hwf : v.wf = true) :
    Value.fromText v.toText = some v := by
  cases v with
  | Plaintext pt =>
    have h := readPt_roundtrip pt hwf [] (pt.print.length + 1) (by simp) (by rfl)
    rw [List.append_nil] at h
    simp only [Value.fromText, Value.toText]
    rw [h]
  | Record r =>
    have hlen1 : r.print.length = (printEntries r.entries ++ ['}']).length + 1 := by
      simp [Record.print]
    have hnone := readPt_record_none r hwf ((printEntries r.entries ++ ['}']).length)
      (by omega)
    have hrec := readRecord_roundtrip r hwf [] (r.print.length + 1) (by simp)
    rw [List.append_nil] at hrec
    simp only [Value.fromText, Value.toText]
    rw [show r.print.length + 1 = (printEntries r.entries ++ ['}']).length + 2 from by
      omega]
    rw [hnone]
    simp only []
    rw [show (printEntries r.entries ++ ['}']).length + 2 = r.print.length + 1 from by
      omega, hrec]

/-- C9: value serialization. For every constructible (well-formed) value,
the framed binary form equals an 8-byte little-endian total-length header
followed by exactly the compact binary bytes, and all three encodings —
human-readable text, compact binary, and framed binary — deserialize back
to a value equal to the original. -/
theorem value_serialization_roundtrip (v : Value) (hwf : v.wf = true)
    (hlen : v.to_bytes_le.length < 2 ^ 64) :
    v.to_bytes_framed = natToLeBytes 8 v.to_bytes_le.length ++ v.to_bytes_le ∧
    Value.fromText v.toText = some v ∧
    Value.from_bytes_le v.to_bytes_le = some v ∧
    Value.from_bytes_framed v.to_bytes_framed = some v :=
  ⟨rfl, value_text_roundtrip v hwf, value_bytes_roundtrip v hwf,
    value_framed_roundtrip v hwf hlen⟩

theorem value_serialization_roundtrip_witness :
    Value.fromText
        (Value.toText (.Record ⟨[(⟨"owner".toList⟩, .Private (.literal (.U64 100)))]⟩)) =
      some (.Record ⟨[(⟨"owner".toList⟩, .Private (.literal (.U64 100)))]⟩) ∧
    Value.from_bytes_le
        (Value.to_bytes_le (.Record ⟨[(⟨"owner".toList⟩, .Private (.literal (.U64 100)))]⟩)) =
      some (.Record ⟨[(⟨"owner".toList⟩, .Private (.literal (.U64 100)))]⟩) ∧
    Value.from_bytes_framed
        (Value.to_bytes_framed
          (.Record ⟨[(⟨"owner".toList⟩, .Private (.literal (.U64 100)))]⟩)) =
      some (.Record ⟨[(⟨"owner".toList⟩, .Private (.literal (.U64 100)))]⟩) :=
  ⟨(value_serialization_roundtrip
      (.Record ⟨[(⟨"owner".toList⟩, .Private (.literal (.U64 100)))]⟩)
      (by decide) (by decide)).2.1,
    (value_serialization_roundtrip
      (.Record ⟨[(⟨"owner".toList⟩, .Private (.literal (.U64 100)))]⟩)
      (by decide) (by decide)).2.2.1,
    (value_serialization_roundtrip
      (.Record ⟨[(⟨"owner".toList⟩, .Private (.literal (.U64 100)))]⟩)
      (by decide) (by decide)).2.2.2⟩

end Exec

end SnarkVM

